import Mathlib

/-
Verification of the kv-file parser and widget-correspondence merger
(kvparser.py of Kv-Creator).

The embedding mirrors the Python source:
- `commentRE`, `widgetRE`, `classRE`, `propRE` are the four line regexes,
  implemented directly as matchers with Python `re` semantics restricted to
  the single-line contents the parser feeds them.
- `indent_count` and `expandtabs` model the indentation computation.
- `KvFile.parse`'s mutable object graph is modelled as an arena: a list of
  nodes with parent indices; `processLine` is the loop body, `runLines` the
  loop, `parse` adds the final root-widget check.
- `populate` models `KvWidget.populate` on an explicit element tree.
Python exceptions become constructors of explicit error types, carrying the
same data as the exception messages.
-/

namespace KvParser

/-- The characters Python 2 `str.isspace` / `\s` recognise. -/
def pyIsSpace (c : Char) : Bool :=
  c = ' ' || c = '\t' || c = '\n' || c = '\r' || c = '\x0b' || c = '\x0c'

/-- Python `\w` word characters: letters, digits and underscore (ASCII). -/
def pyIsWord (c : Char) : Bool :=
  c.isAlphanum || c = '_'

/-- Python regex `$` semantics helper: `$` matches at the end of the string or
just before a single final newline, so the matchers below first drop one
trailing newline. -/
def dropTrailingNl (s : List Char) : List Char :=
  if s.getLast? = some '\n' then s.dropLast else s

/-- The greedy `\w+` prefix and the remainder. -/
def takeWord (s : List Char) : List Char × List Char :=
  (s.takeWhile pyIsWord, s.dropWhile pyIsWord)

/-- What one classified line carries: the payload of `KvComment`, `KvWidget`,
`KvClassRule` or `KvProperty`. -/
inductive LineData where
  | comment (text : List Char)
  | widget (name : List Char)
  | classRule (name : List Char)
  | property (name value : List Char)
deriving DecidableEq, Repr

/-- `commentRE`: Python regex `^#(.*)$` applied to a line content (no interior
newline).  `.*` cannot cross a newline, `$` allows one final newline. -/
def commentRE (s : List Char) : Option (List Char) :=
  match s with
  | '#' :: rest =>
    let r := dropTrailingNl rest
    if r.contains '\n' then none else some r
  | _ => none

/-- `widgetRE`: Python regex `^(\w+):\s*$`.  It matches exactly when a
nonempty word prefix is followed by a colon and whitespace only. -/
def widgetRE (s : List Char) : Option (List Char) :=
  match takeWord s with
  | (w, r) =>
    if w.isEmpty then none
    else
      match r with
      | ':' :: r2 => if r2.all pyIsSpace then some w else none
      | _ => none

/-- `classRE`: Python regex `^\<(\w+)\>:\s*$`. -/
def classRE (s : List Char) : Option (List Char) :=
  match s with
  | '<' :: r =>
    match takeWord r with
    | (w, r2) =>
      if w.isEmpty then none
      else
        match r2 with
        | '>' :: ':' :: r3 => if r3.all pyIsSpace then some w else none
        | _ => none
  | _ => none

/-- `propRE`: Python regex `^(\w+):\s*(.+)$`.  After the colon, `\s*` is
greedy but backtracks so that `(.+)` captures at least one non-newline
character; `$` allows one final newline.  On an all-whitespace tail the
backtracking leaves the last whitespace character as the capture. -/
def propRE (s : List Char) : Option (List Char × List Char) :=
  match takeWord s with
  | (w, r) =>
    if w.isEmpty then none
    else
      match r with
      | ':' :: r2 =>
        let r3 := dropTrailingNl r2
        let tail := r3.dropWhile pyIsSpace
        if tail.contains '\n' then none
        else if !tail.isEmpty then some (w, tail)
        else if !r3.isEmpty then some (w, [r3.getLastD ' '])
        else none
      | _ => none

/-- The classification loop over `KvFile.rule_formats`, in source order:
comment, widget, class, property; the first match wins. -/
def classify (content : List Char) : Option LineData :=
  match commentRE content with
  | some t => some (.comment t)
  | none =>
    match widgetRE content with
    | some n => some (.widget n)
    | none =>
      match classRE content with
      | some n => some (.classRule n)
      | none =>
        match propRE content with
        | some (n, v) => some (.property n v)
        | none => none

/-- Everything the Python code can raise while parsing, with the data the
exception messages carry.  `badIndex` and `fuelOut` are artifacts of the
embedding (array bounds and the fuel of `walkUp`) and are unreachable from
`initState`. -/
inductive Err where
  | invalidIndent (c : Char) (ws : List Char) (line : List Char)
  | parsing (lineNo : Nat) (line : List Char)
  | attrNone
  | attrNoElements
  | assertParentNone
  | assertMultipleRoots
  | badIndex
  | fuelOut
deriving DecidableEq, Repr

/-- Python 2 `str.expandtabs()` with the default tab stop 8: a tab advances
the column to the next multiple of 8, `\n` and `\r` reset the column. -/
def expandtabsAux : List Char → Nat → List Char
  | [], _ => []
  | c :: rest, col =>
    if c = '\t' then
      let pad := 8 - col % 8
      List.replicate pad ' ' ++ expandtabsAux rest (col + pad)
    else if c = '\n' || c = '\r' then
      c :: expandtabsAux rest 0
    else
      c :: expandtabsAux rest (col + 1)

def expandtabs (s : List Char) : List Char :=
  expandtabsAux s 0

/-- `indent_count(s, line)`: expand tabs, then count leading spaces; any
other character raises, reporting the character, the original indentation
string and the raw line (no line number). -/
def indent_count (s line : List Char) : Except Err Nat :=
  match (expandtabs s).find? (fun c => c ≠ ' ') with
  | some c => .error (.invalidIndent c s line)
  | none => .ok (expandtabs s).length

/-- Node payloads in the arena: the fake root created by `parse`, or a
classified element. -/
inductive NodeKind where
  | root
  | elem (d : LineData)
deriving DecidableEq, Repr

/-- Only `KvWidget` instances and the fake root object carry an `elements`
list in the source; appending a child to any other node raises
`AttributeError`. -/
def hasElements : NodeKind → Bool
  | .root => true
  | .elem (.widget _) => true
  | _ => false

/-- One node of the parse tree: `kind`, `indent_level`, `parent` reference
and the `elements` (child indices, in append order). -/
structure PNode where
  kind : NodeKind
  indentLevel : Int
  parent : Option Nat
  elements : List Nat
deriving DecidableEq, Repr

/-- The loop state of `KvFile.parse`: the object graph (arena, index 0 is the
fake root), `last_indent`, `current_root` and `new_element`. -/
structure PState where
  nodes : List PNode
  lastIndent : Int
  currentRoot : Option Nat
  newElement : Option Nat
deriving DecidableEq, Repr

def initState : PState :=
  ⟨[⟨.root, -1, none, []⟩], 0, some 0, none⟩

/-- The `while current_root.indent_level >= indent_level` walk.  `fuel`
bounds the loop (any value above the arena size is enough); dereferencing a
`None` current root is an `AttributeError`, a missing parent fires the
`assert current_root.parent is not None`. -/
def walkUp (nodes : List PNode) : Nat → Option Nat → Int → Except Err Nat
  | _, none, _ => .error .attrNone
  | fuel, some i, w =>
    match nodes[i]? with
    | none => .error .badIndex
    | some nd =>
      if w ≤ nd.indentLevel then
        match nd.parent with
        | none => .error .assertParentNone
        | some p =>
          match fuel with
          | 0 => .error .fuelOut
          | fuel' + 1 => walkUp nodes fuel' (some p) w
      else .ok i

/-- The back half of one loop iteration of `KvFile.parse`, once the line's
indentation count `ic` and classification `ld` are known: resolve the parent
according to the indentation relation, create the element (`parse_line`) and
append it to the parent's `elements`. -/
def insertElem (st : PState) (ic : Nat) (ld : LineData) : Except Err PState :=
  let w : Int := ic
  let crRes : Except Err (Option Nat) :=
    if w < st.lastIndent then
      (walkUp st.nodes (st.nodes.length + 1) st.currentRoot w).map some
    else if st.lastIndent < w then .ok st.newElement
    else .ok st.currentRoot
  match crRes with
  | .error e => .error e
  | .ok cr =>
    let newIdx := st.nodes.length
    let nodes1 := st.nodes ++ [⟨.elem ld, w, cr, []⟩]
    match cr with
    | none => .error .attrNone
    | some ci =>
      match nodes1[ci]? with
      | none => .error .badIndex
      | some pn =>
        if hasElements pn.kind then
          .ok ⟨nodes1.set ci { pn with elements := pn.elements ++ [newIdx] },
               w, some ci, some newIdx⟩
        else .error .attrNoElements

/-- One iteration of the `for (line_no, line) in enumerate(f, 1)` loop:
skip blank lines, compute the indentation, classify, then `insertElem`. -/
def processLine (st : PState) (lineNo : Nat) (line : List Char) : Except Err PState :=
  let content := line.dropWhile pyIsSpace
  if content.isEmpty then .ok st
  else
    match indent_count (line.takeWhile pyIsSpace) line with
    | .error e => .error e
    | .ok ic =>
      match classify content with
      | none => .error (.parsing lineNo line)
      | some ld => insertElem st ic ld

/-- The parse loop over all lines, with 1-based line numbers. -/
def runLines : PState → Nat → List (List Char) → Except Err PState
  | st, _, [] => .ok st
  | st, n, l :: ls =>
    match processLine st n l with
    | .error e => .error e
    | .ok st' => runLines st' (n + 1) ls

/-- Is the node at index `i` a `KvWidget`? (`is_widget` on arena indices.) -/
def isWidgetIdx (nodes : List PNode) (i : Nat) : Bool :=
  match nodes[i]? with
  | some nd =>
    match nd.kind with
    | .elem (.widget _) => true
    | _ => false
  | none => false

/-- `root.elements` after the loop. -/
def rootElements (nodes : List PNode) : List Nat :=
  match nodes[0]? with
  | some r => r.elements
  | none => []

/-- `filter(is_widget, root.elements)`. -/
def rootWidgets (nodes : List PNode) : List Nat :=
  (rootElements nodes).filter (isWidgetIdx nodes)

/-- What `KvFile.parse` leaves behind: the object graph, `self.elements` and
`self.rootRule`. -/
structure ParseResult where
  nodes : List PNode
  elements : List Nat
  rootRule : Option Nat
deriving DecidableEq, Repr

/-- `KvFile.parse` on the file's lines (each line carries its trailing
newline, as Python file iteration yields it): run the loop, then
`assert len(widgets) <= 1` and select `rootRule`. -/
def parse (lines : List (List Char)) : Except Err ParseResult :=
  match runLines initState 1 lines with
  | .error e => .error e
  | .ok st =>
    let ws := rootWidgets st.nodes
    if ws.length ≤ 1 then .ok ⟨st.nodes, rootElements st.nodes, ws.head?⟩
    else .error .assertMultipleRoots

/-! ## The widget correspondence merger (`KvWidget.populate`) -/

/-- A live widget instance from the rendering toolkit, as the merger sees it:
a simple (unqualified) type name and an ordered child sequence.  The source
queries these as `type(widget).__name__.split(".")[-1]` and
`widget.children`. -/
inductive Live where
  | mk (typeName : List Char) (children : List Live)

def Live.typeName : Live → List Char
  | .mk n _ => n

def Live.children : Live → List Live
  | .mk _ c => c

/-- A `KvElement` tree as `populate` manipulates it: `KvWidget` carries its
`name`, `elements` and the merged `widget` reference (set by `populate`). -/
inductive KvT where
  | comment (text : List Char)
  | widget (name : List Char) (elements : List KvT) (live : Option Live)
  | classRule (name : List Char)
  | property (name value : List Char)

/-- `is_widget`: is this element a `KvWidget`? -/
def is_widget : KvT → Bool
  | .widget _ _ _ => true
  | _ => false

/-- The two assertions `populate` can fire, and the impossible case of
calling it on a non-widget element. -/
inductive MergeErr where
  | nameMismatch (parsed liveName : List Char)
  | childCount
  | notWidget
deriving DecidableEq, Repr

mutual

/-- `KvWidget.populate(widget)`: check the type name, store the live
reference, check `len(widgets) <= len(widget.children)`, then recurse over
`zip(widgets, reversed(widget.children))`. -/
def populate (t : KvT) (lv : Live) : Except MergeErr KvT :=
  match t with
  | .widget name elts _ =>
    if name = lv.typeName then
      if (elts.filter is_widget).length ≤ lv.children.length then
        match populateElems elts lv.children.reverse with
        | .error e => .error e
        | .ok es => .ok (.widget name es (some lv))
      else .error .childCount
    else .error (.nameMismatch name lv.typeName)
  | _ => .error .notWidget
termination_by sizeOf t

/-- The `for e, c in zip(widgets, reversed(widget.children))` loop: walk the
element list in order, feeding each `KvWidget` the next live child from the
reversed sequence; non-widget elements pass through untouched, and when the
live list runs out the remaining widgets are left unmerged (zip
truncation). -/
def populateElems (elts : List KvT) (ls : List Live) : Except MergeErr (List KvT) :=
  match elts with
  | [] => .ok []
  | e :: es =>
    if is_widget e then
      match ls with
      | [] => (populateElems es []).map (e :: ·)
      | l :: ls' =>
        match populate e l with
        | .error er => .error er
        | .ok e' => (populateElems es ls').map (e' :: ·)
    else (populateElems es ls).map (e :: ·)
termination_by sizeOf elts

end

/-! ## Derived notions used by the statements -/

/-- The tree invariant of claim C5: every node with a parent reference has
a strictly smaller parent indentation. -/
def parentIndentOK (nodes : List PNode) : Prop :=
  ∀ (i j : Nat) (nd : PNode), nodes[i]? = some nd → nd.parent = some j →
    ∃ pd : PNode, nodes[j]? = some pd ∧ pd.indentLevel < nd.indentLevel

/-- The four element kinds, for comparing the source classifier with the
specified one. -/
inductive SpecKind where
  | comment
  | widget
  | classRule
  | property
deriving DecidableEq, Repr

def lineKind : LineData → SpecKind
  | .comment _ => .comment
  | .widget _ => .widget
  | .classRule _ => .classRule
  | .property _ _ => .property

/-- Strip trailing whitespace. -/
def rstrip (l : List Char) : List Char :=
  (l.reverse.dropWhile pyIsSpace).reverse

/-- Python `str.strip()` of both ends. -/
def pyStrip (s : List Char) : List Char :=
  rstrip (s.dropWhile pyIsSpace)

/-- One physical line as the parser reads it: a newline-free body, possibly
with the file's final newline still attached. -/
def singleLine (content : List Char) : Prop :=
  ∃ body : List Char, body.contains '\n' = false ∧
    (content = body ∨ content = body ++ ['\n'])

/-- Modelled from the spec, section 4.1 shape 3: entire content is
one-or-more word characters, then a colon (trailing whitespace stripped
beforehand). -/
def specWidgetShape (s : List Char) : Bool :=
  !(s.takeWhile pyIsWord).isEmpty && (s.dropWhile pyIsWord == [':'])

/-- Modelled from the spec, section 4.1 shape 2: a bracketed identifier and
a colon. -/
def specClassShape (s : List Char) : Bool :=
  match s with
  | '<' :: r => !(r.takeWhile pyIsWord).isEmpty && (r.dropWhile pyIsWord == ['>', ':'])
  | _ => false

/-- Is this a colon followed by a non-empty remainder? -/
def colonTail : List Char → Bool
  | ':' :: t => !t.isEmpty
  | _ => false

/-- Modelled from the spec, section 4.1 shape 4: a word, a colon and a
non-empty tail. -/
def specPropShape (s : List Char) : Bool :=
  !(s.takeWhile pyIsWord).isEmpty && colonTail (s.dropWhile pyIsWord)

/-- Modelled from the spec, section 4.1: classify the stripped content by
the spec's priority order: comment (first non-whitespace character is a
hash), class rule, widget, property. -/
def specClassify (content : List Char) : Option SpecKind :=
  let s := pyStrip content
  if s.head? = some '#' then some .comment
  else if specClassShape s then some .classRule
  else if specWidgetShape s then some .widget
  else if specPropShape s then some .property
  else none

/-! ## Serialization (for the round-trip law)

`KvFile.save` is referenced by the application (`MainWindow.saveFile`) but
its body is not part of the source, so serialization is modelled from the
spec: each element is rendered depth-first as one line rebuilt from its
kind, fields and recorded `indentLevel`, using the four line shapes. -/

/-- An element tree with the data a line carries plus the recorded
indentation; only widgets hold children, as in the source. -/
inductive ElemTree where
  | comment (indent : Nat) (text : List Char)
  | widget (indent : Nat) (name : List Char) (children : List ElemTree)
  | classRule (indent : Nat) (name : List Char)
  | property (indent : Nat) (name value : List Char)

/-- Read the element tree rooted at arena index `i` back out of the object
graph.  `fuel` bounds the recursion depth; any value at least
`nodes.length` is enough because children always have larger indices. -/
def extractTree (nodes : List PNode) : Nat → Nat → ElemTree
  | 0, _ => .comment 0 []
  | fuel + 1, i =>
    match nodes[i]? with
    | some nd =>
      match nd.kind with
      | .elem (.comment t) => .comment nd.indentLevel.toNat t
      | .elem (.widget n) =>
        .widget nd.indentLevel.toNat n (nd.elements.map (fun j => extractTree nodes fuel j))
      | .elem (.classRule n) => .classRule nd.indentLevel.toNat n
      | .elem (.property n v) => .property nd.indentLevel.toNat n v
      | .root => .comment 0 []
    | none => .comment 0 []

/-- The parsed element forest (the trees under `self.elements`). -/
def extractForest (r : ParseResult) : List ElemTree :=
  r.elements.map (fun i => extractTree r.nodes r.nodes.length i)

/-- Modelled from the spec: rebuild the textual body of a line from the
element's kind and fields, per the four line shapes. -/
def renderData : LineData → List Char
  | .comment t => '#' :: t
  | .widget n => n ++ [':']
  | .classRule n => '<' :: (n ++ ['>', ':'])
  | .property n v => n ++ (':' :: ' ' :: v)

/-- Modelled from the spec: one serialized line, indentation then body. -/
def emitLine (ind : Nat) (d : LineData) : List Char :=
  List.replicate ind ' ' ++ renderData d ++ ['\n']

/-- Modelled from the spec: serialize an element tree depth-first. -/
def serializeTree : ElemTree → List (List Char)
  | .comment i t => [emitLine i (.comment t)]
  | .classRule i n => [emitLine i (.classRule n)]
  | .property i n v => [emitLine i (.property n v)]
  | .widget i n cs =>
    emitLine i (.widget n) :: (cs.attach.map (fun c => serializeTree c.1)).flatten
decreasing_by
  have := List.sizeOf_lt_of_mem c.2
  simp at this ⊢
  omega

/-- Modelled from the spec: serialize the whole parse result (this stands in
for the absent `KvFile.save`). -/
def serializeResult (r : ParseResult) : List (List Char) :=
  ((extractForest r).map serializeTree).flatten

/-! ## Proof scaffolding for the round-trip law -/

/-- The information `insertElem` consumes from one line: nothing for a blank
line, otherwise the indentation count and the classification. -/
def lineAbs (line : List Char) : Option (Option (Nat × LineData)) :=
  let content := line.dropWhile pyIsSpace
  if content.isEmpty then some none
  else
    match indent_count (line.takeWhile pyIsSpace) line with
    | .error _ => none
    | .ok ic =>
      match classify content with
      | none => none
      | some ld => some (some (ic, ld))

/-- The abstracted line sequence of a file, dropping blank lines; `none` if
some line would fail indentation or classification. -/
def absSeq : List (List Char) → Option (List (Nat × LineData))
  | [] => some []
  | l :: ls =>
    match lineAbs l with
    | none => none
    | some none => absSeq ls
    | some (some a) =>
      match absSeq ls with
      | none => none
      | some s => some (a :: s)

/-- The parse loop on abstracted lines. -/
def runAbs : PState → List (Nat × LineData) → Except Err PState
  | st, [] => .ok st
  | st, a :: s =>
    match insertElem st a.1 a.2 with
    | .error e => .error e
    | .ok st' => runAbs st' s

/-- Well-formedness of classified line data, as guaranteed by `classify`:
names are nonempty words, texts and values carry no newline, values are
nonempty and start with a non-space. -/
def dataWF : LineData → Prop
  | .comment t => t.contains '\n' = false
  | .widget n => n ≠ [] ∧ n.all pyIsWord = true
  | .classRule n => n ≠ [] ∧ n.all pyIsWord = true
  | .property n v =>
    n ≠ [] ∧ n.all pyIsWord = true ∧ v ≠ [] ∧ v.contains '\n' = false ∧
      (∀ c ∈ v.head?, pyIsSpace c = false)

/-- An element tree annotated with the arena index of every node; the proof
of the round-trip law maintains one of these alongside the parse state. -/
inductive ITree where
  | node (idx : Nat) (indent : Nat) (data : LineData) (children : List ITree)

def ITree.idx : ITree → Nat
  | .node i _ _ _ => i

def ITree.abs : ITree → Nat × LineData
  | .node _ ind d _ => (ind, d)

def ITree.children : ITree → List ITree
  | .node _ _ _ cs => cs

/-- Preorder traversal: the list of all subtrees, parents first. -/
def dfsT : ITree → List ITree
  | .node i ind d cs => .node i ind d cs :: (cs.attach.map (fun c => dfsT c.1)).flatten
decreasing_by
  have := List.sizeOf_lt_of_mem c.2
  simp at this ⊢
  omega

def dfsF (f : List ITree) : List ITree :=
  (f.map dfsT).flatten

/-- `Fits nodes par t`: the arena realises the indexed tree `t` as a child
of node `par`, with well-formed data, children stored in order, child
indices above the parent index, and children only under widgets. -/
def Fits (nodes : List PNode) (par : Nat) : ITree → Prop
  | .node i ind d cs =>
    ∃ nd, nodes[i]? = some nd ∧ nd.kind = .elem d ∧ nd.indentLevel = (ind : Int) ∧
      nd.parent = some par ∧ nd.elements = cs.map ITree.idx ∧ par < i ∧
      dataWF d ∧ (hasElements (.elem d) = false → cs = []) ∧
      ∀ c ∈ cs, Fits nodes i c

/-- Append a new node at depth `j` along the rightmost spine of a forest:
at depth 0 it becomes a new last tree, otherwise it is pushed into the last
tree's children at depth `j - 1`. -/
def addRight : List ITree → Nat → ITree → List ITree
  | f, 0, x => f ++ [x]
  | f, j + 1, x =>
    match f.getLast? with
    | none => f
    | some (.node i ind d cs) => f.dropLast ++ [.node i ind d (addRight cs j x)]

/-- The rightmost spine of a forest: the last tree, its last child, and so
on. -/
def spineF : List ITree → List ITree
  | [] => []
  | [.node i ind d cs] => .node i ind d cs :: spineF cs
  | _ :: t :: f => spineF (t :: f)
decreasing_by
  all_goals simp
  all_goals omega

/-- Erase the indices, producing the serializable element tree. -/
def toElem : ITree → ElemTree
  | .node _ ind d cs =>
    match d with
    | .comment t => .comment ind t
    | .widget n => .widget ind n (cs.attach.map (fun c => toElem c.1))
    | .classRule n => .classRule ind n
    | .property n v => .property ind n v
decreasing_by
  have := List.sizeOf_lt_of_mem c.2
  simp at this ⊢
  omega

/-- One open node on the rightmost spine during the parse: its arena index,
indentation, payload, and the children finished so far. -/
structure Frame where
  idx : Nat
  indent : Nat
  data : LineData
  cs : List ITree

/-- Close a frame into the tree it denotes. -/
def Frame.tree (F : Frame) : ITree := .node F.idx F.indent F.data F.cs

/-- The arena index the parser would attach the next element to, at the top
of this (innermost-first) spine stack: the top frame, or the fake root. -/
def stkTop : List Frame → Nat
  | [] => 0
  | F :: _ => F.idx

/-- The indentation of that prospective parent (the fake root's is -1). -/
def stkTopInd : List Frame → Int
  | [] => -1
  | F :: _ => (F.indent : Int)

/-- The abstracted lines consumed so far by a spine stack, in insertion
order: outer frames first, each followed by its finished children. -/
def stkAbs : List Frame → List (Nat × LineData)
  | [] => []
  | F :: rest => stkAbs rest ++ (F.indent, F.data) :: (dfsF F.cs).map ITree.abs

/-- The arena indices consumed so far, in the same order. -/
def stkIdx : List Frame → List Nat
  | [] => []
  | F :: rest => stkIdx rest ++ F.idx :: (dfsF F.cs).map ITree.idx

/-- Pop frames whose indentation is at least `w` (the parser's upward
walk), closing each into the frame below; the second component is the
finished top-level tree produced when the whole stack closes. -/
def popStk (w : Int) : List Frame → List Frame × Option ITree
  | [] => ([], none)
  | [F] => if w ≤ (F.indent : Int) then ([], some F.tree) else ([F], none)
  | F :: G :: rest =>
    if w ≤ (F.indent : Int) then popStk w ({ G with cs := G.cs ++ [F.tree] } :: rest)
    else (F :: G :: rest, none)
termination_by l => l.length
decreasing_by simp

/-- The spine-stack invariant: each frame is realised in the arena with the
parent chain along the stack, strictly increasing indentation downwards and
its finished children fully realised; `succ` is the arena index of the
frame already built on top of this one (present in its `elements`). -/
def StackInv (nodes : List PNode) : Option Nat → List Frame → Prop
  | _, [] => True
  | succ, F :: rest =>
    (∃ nd : PNode, nodes[F.idx]? = some nd ∧ nd.kind = .elem F.data ∧
      nd.indentLevel = (F.indent : Int) ∧ nd.parent = some (stkTop rest) ∧
      nd.elements = F.cs.map ITree.idx ++ succ.toList ∧
      stkTop rest < F.idx ∧ stkTopInd rest < (F.indent : Int) ∧
      dataWF F.data ∧ (∀ c ∈ F.cs, Fits nodes F.idx c) ∧
      (hasElements (.elem F.data) = false → F.cs = [] ∧ succ = none)) ∧
    StackInv nodes (some F.idx) rest

/-- The replay invariant for the round-trip proof, tying the parse state to
a finished top-level forest `f₀` and the open rightmost spine `stk`. -/
structure RInv (st : PState) (f₀ : List ITree) (stk : List Frame) : Prop where
  root0 : st.nodes[0]? =
    some ⟨.root, -1, none, f₀.map ITree.idx ++ (stk.getLast?.map Frame.idx).toList⟩
  fits0 : ∀ t ∈ f₀, Fits st.nodes 0 t
  stki : StackInv st.nodes none stk
  lastInd : st.lastIndent = (match stk with | [] => 0 | F :: _ => (F.indent : Int))
  curRoot : st.currentRoot = some (stkTop stk.tail)
  newElem : st.newElement = (stk.head?.map Frame.idx)
  empty0 : stk = [] → f₀ = []
  gidx : (dfsF f₀).map ITree.idx ++ stkIdx stk = List.range' 1 (st.nodes.length - 1)

/-- The inductive invariant the line loop maintains: node 0 is the implicit
root at indentation -1, parents always have strictly smaller indentation,
`current_root` (when set) sits strictly above `last_indent`, and
`new_element` (when set) sits exactly at `last_indent`. -/
structure Inv (st : PState) : Prop where
  root0 : ∃ rt : PNode, st.nodes[0]? = some rt ∧ rt.indentLevel = -1 ∧
    rt.parent = none ∧ rt.kind = .root
  parentOK : parentIndentOK st.nodes
  curLt : ∀ c : Nat, st.currentRoot = some c →
    ∃ cd : PNode, st.nodes[c]? = some cd ∧ cd.indentLevel < st.lastIndent
  newEq : ∀ x : Nat, st.newElement = some x →
    ∃ xd : PNode, st.nodes[x]? = some xd ∧ xd.indentLevel = st.lastIndent

/-! ## Lemmas about the merger -/

theorem populateElems_nil (ls : List Live) : populateElems [] ls = .ok [] := by
  rw [populateElems.eq_def]

theorem populateElems_cons_widget (e : KvT) (es : List KvT) (l : Live) (ls : List Live)
    (hw : is_widget e = true) :
    populateElems (e :: es) (l :: ls) =
      match populate e l with
      | .error er => .error er
      | .ok e' => (populateElems es ls).map (e' :: ·) := by
  rw [populateElems.eq_def]
  simp [hw]

theorem populateElems_cons_widget_nil (e : KvT) (es : List KvT) (hw : is_widget e = true) :
    populateElems (e :: es) [] = (populateElems es []).map (e :: ·) := by
  rw [populateElems.eq_def]
  simp [hw]

theorem populateElems_cons_nonwidget (e : KvT) (es : List KvT) (ls : List Live)
    (hw : is_widget e = false) :
    populateElems (e :: es) ls = (populateElems es ls).map (e :: ·) := by
  rw [populateElems.eq_def]
  simp [hw]

theorem populate_ok_shape (t : KvT) (lv : Live) (r : KvT) (h : populate t lv = .ok r) :
    ∃ name elts l es, t = .widget name elts l ∧ name = lv.typeName ∧
      (elts.filter is_widget).length ≤ lv.children.length ∧
      populateElems elts lv.children.reverse = .ok es ∧
      r = .widget name es (some lv) := by
  cases t with
  | widget name elts l =>
    rw [populate.eq_def] at h
    by_cases hn : name = lv.typeName
    · subst hn
      by_cases hc : (elts.filter is_widget).length ≤ lv.children.length
      · simp only [if_true, hc, if_pos rfl] at h
        cases he : populateElems elts lv.children.reverse with
        | error e => rw [he] at h; cases h
        | ok es =>
          rw [he] at h
          cases h
          exact ⟨lv.typeName, elts, l, es, rfl, rfl, hc, he, rfl⟩
      · simp only [if_pos rfl, hc, if_false] at h
        cases h
    · simp only [hn, if_false] at h
      cases h
  | comment t => simp [populate.eq_def] at h
  | classRule n => simp [populate.eq_def] at h
  | property n v => simp [populate.eq_def] at h

theorem populate_ok_is_widget (t : KvT) (lv : Live) (r : KvT) (h : populate t lv = .ok r) :
    is_widget r = true := by
  obtain ⟨name, elts, l, es, _, _, _, _, hr⟩ := populate_ok_shape t lv r h
  rw [hr]; rfl

theorem populateElems_pairs : ∀ (elts : List KvT) (ls : List Live) (es : List KvT),
    populateElems elts ls = .ok es →
    (elts.filter is_widget).length ≤ ls.length →
    List.Forall₂ (fun (p : KvT × Live) (w : KvT) => populate p.1 p.2 = .ok w)
      ((elts.filter is_widget).zip ls) (es.filter is_widget) := by
  intro elts
  induction elts with
  | nil =>
    intro ls es h _
    rw [populateElems_nil] at h
    cases h
    simp
  | cons e es' ih =>
    intro ls es h hlen
    by_cases hw : is_widget e
    · cases ls with
      | nil =>
        exfalso
        simp [List.filter_cons, hw] at hlen
      | cons l ls' =>
        rw [populateElems_cons_widget e es' l ls' hw] at h
        cases hp : populate e l with
        | error er => rw [hp] at h; cases h
        | ok e' =>
          rw [hp] at h
          cases hr : populateElems es' ls' with
          | error er => rw [hr] at h; simp [Except.map] at h
          | ok es'' =>
            rw [hr] at h
            simp only [Except.map] at h
            cases h
            have hw' := populate_ok_is_widget e l e' hp
            simp only [List.filter_cons, hw, hw', if_true, List.zip_cons_cons]
            exact List.Forall₂.cons hp (ih ls' es'' hr (by
              simp [List.filter_cons, hw] at hlen
              omega))
    · have hwb : is_widget e = false := by
        cases hx : is_widget e
        · rfl
        · exact absurd hx hw
      rw [populateElems_cons_nonwidget e es' ls hwb] at h
      cases hr : populateElems es' ls with
      | error er => rw [hr] at h; simp [Except.map] at h
      | ok es'' =>
        rw [hr] at h
        simp only [Except.map] at h
        cases h
        simp only [List.filter_cons, hwb, Bool.false_eq_true, if_false]
        exact ih ls es'' hr (by simpa [List.filter_cons, hwb] using hlen)

theorem populateElems_take : ∀ (elts : List KvT) (ls : List Live),
    (elts.filter is_widget).length ≤ ls.length →
    populateElems elts (ls.take (elts.filter is_widget).length) = populateElems elts ls := by
  intro elts
  induction elts with
  | nil =>
    intro ls _
    rw [populateElems_nil, populateElems_nil]
  | cons e es' ih =>
    intro ls hlen
    by_cases hw : is_widget e
    · simp only [List.filter_cons, hw, if_true, List.length_cons] at hlen ⊢
      cases ls with
      | nil => simp at hlen
      | cons l ls' =>
        rw [List.take_succ_cons]
        rw [populateElems_cons_widget e es' l (ls'.take (List.filter is_widget es').length) hw,
          populateElems_cons_widget e es' l ls' hw]
        rw [ih ls' (by simpa using hlen)]
    · have hwb : is_widget e = false := by
        cases hx : is_widget e
        · rfl
        · exact absurd hx hw
      simp only [List.filter_cons, hwb, Bool.false_eq_true, if_false] at hlen ⊢
      rw [populateElems_cons_nonwidget e es' (ls.take (List.filter is_widget es').length) hwb,
        populateElems_cons_nonwidget e es' ls hwb]
      rw [ih ls hlen]

theorem populateElems_skips : ∀ (elts : List KvT) (ls : List Live) (es : List KvT),
    populateElems elts ls = .ok es →
    List.Forall₂ (fun e e' => is_widget e = false → e' = e) elts es := by
  intro elts
  induction elts with
  | nil =>
    intro ls es h
    rw [populateElems_nil] at h
    cases h
    exact List.Forall₂.nil
  | cons e es' ih =>
    intro ls es h
    by_cases hw : is_widget e
    · cases ls with
      | nil =>
        rw [populateElems_cons_widget_nil e es' hw] at h
        cases hr : populateElems es' [] with
        | error er => rw [hr] at h; simp [Except.map] at h
        | ok es'' =>
          rw [hr] at h
          simp only [Except.map] at h
          cases h
          exact List.Forall₂.cons (fun hf => by simp [hw] at hf) (ih [] es'' hr)
      | cons l ls' =>
        rw [populateElems_cons_widget e es' l ls' hw] at h
        cases hp : populate e l with
        | error er => rw [hp] at h; cases h
        | ok e' =>
          rw [hp] at h
          cases hr : populateElems es' ls' with
          | error er => rw [hr] at h; simp [Except.map] at h
          | ok es'' =>
            rw [hr] at h
            simp only [Except.map] at h
            cases h
            exact List.Forall₂.cons (fun hf => by simp [hw] at hf) (ih ls' es'' hr)
    · have hwb : is_widget e = false := by
        cases hx : is_widget e
        · rfl
        · exact absurd hx hw
      rw [populateElems_cons_nonwidget e es' ls hwb] at h
      cases hr : populateElems es' ls with
      | error er => rw [hr] at h; simp [Except.map] at h
      | ok es'' =>
        rw [hr] at h
        simp only [Except.map] at h
        cases h
        exact List.Forall₂.cons (fun _ => rfl) (ih ls es'' hr)

/-- C1: for every parsed widget node and live instance, a successful merge
pairs the parsed widget children, in file order, with the live children in
reverse order of the live sequence (the k-th parsed widget child with the
k-th entry of the reversed live child list), and recurses on each pair. -/
theorem merge_pairs_reversed_live_order (name : List Char) (elts : List KvT) (lv : Live)
    (r : KvT) (h : populate (.widget name elts none) lv = .ok r) :
    ∃ es, r = .widget name es (some lv) ∧
      List.Forall₂ (fun (p : KvT × Live) (w : KvT) => populate p.1 p.2 = .ok w)
        ((elts.filter is_widget).zip lv.children.reverse) (es.filter is_widget) := by
  obtain ⟨n', elts', l', es, heq, hn, hc, hp, hr⟩ := populate_ok_shape _ _ _ h
  injection heq with h1 h2 h3
  subst h1
  subst h2
  refine ⟨es, by rw [hr], ?_⟩
  exact populateElems_pairs elts lv.children.reverse es hp (by simpa using hc)

/-- Witness for C1 at the spec's concrete example: parsed children X then Y,
live children Y_live then X_live; X pairs with X_live, Y with Y_live. -/
theorem merge_pairs_reversed_live_order_witness :
    ∃ es, (KvT.widget ['R']
          [.widget ['X'] [] (some (.mk ['X'] [])), .widget ['Y'] [] (some (.mk ['Y'] []))]
          (some (.mk ['R'] [.mk ['Y'] [], .mk ['X'] []])) : KvT) =
        .widget ['R'] es (some (.mk ['R'] [.mk ['Y'] [], .mk ['X'] []])) ∧
      List.Forall₂ (fun (p : KvT × Live) (w : KvT) => populate p.1 p.2 = .ok w)
        ((([KvT.widget ['X'] [] none, KvT.widget ['Y'] [] none]).filter is_widget).zip
          (Live.mk ['R'] [.mk ['Y'] [], .mk ['X'] []]).children.reverse)
        (es.filter is_widget) :=
  merge_pairs_reversed_live_order ['R'] [.widget ['X'] [] none, .widget ['Y'] [] none]
    (.mk ['R'] [.mk ['Y'] [], .mk ['X'] []]) _
    (by simp [populate, populateElems, Except.map, Live.typeName, Live.children, is_widget])

/-- C2: at any node, merging fails with the child-count error exactly when
there are more parsed widget children than live children; otherwise the
result is determined by the first widget-count entries of the reversed live
child sequence (the remaining live children are never consumed), and
non-widget children pass through unchanged. -/
theorem merge_child_count_check (name : List Char) (elts : List KvT) (lv : Live)
    (hname : lv.typeName = name) :
    (lv.children.length < (elts.filter is_widget).length →
      populate (.widget name elts none) lv = .error .childCount) ∧
    ((elts.filter is_widget).length ≤ lv.children.length →
      populate (.widget name elts none) lv =
        (populateElems elts (lv.children.reverse.take (elts.filter is_widget).length)).map
          (fun es => KvT.widget name es (some lv))) ∧
    (∀ es, populateElems elts lv.children.reverse = .ok es →
      List.Forall₂ (fun e e' => is_widget e = false → e' = e) elts es) := by
  refine ⟨?_, ?_, ?_⟩
  · intro hlt
    rw [populate.eq_def]
    simp only [if_pos hname.symm]
    rw [if_neg (by omega)]
  · intro hle
    rw [populate.eq_def]
    simp only [if_pos hname.symm, if_pos hle]
    rw [populateElems_take elts lv.children.reverse (by simpa using hle)]
    cases populateElems elts lv.children.reverse <;> simp [Except.map]
  · intro es hp
    exact populateElems_skips elts lv.children.reverse es hp

/-- Witness for C2: one widget child against no live children raises the
count error; one widget child against two live children consumes only the
last live child. -/
theorem merge_child_count_check_witness :
    populate (.widget ['R'] [.widget ['X'] [] none] none) (.mk ['R'] []) =
      .error .childCount ∧
    populate (.widget ['R'] [.widget ['X'] [] none] none)
        (.mk ['R'] [.mk ['A'] [], .mk ['X'] []]) =
      (populateElems [.widget ['X'] [] none]
          ((Live.mk ['R'] [.mk ['A'] [], .mk ['X'] []]).children.reverse.take
            (([KvT.widget ['X'] [] none]).filter is_widget).length)).map
        (fun es => KvT.widget ['R'] es (some (.mk ['R'] [.mk ['A'] [], .mk ['X'] []]))) :=
  ⟨(merge_child_count_check ['R'] [.widget ['X'] [] none] (.mk ['R'] []) rfl).1
      (by simp [is_widget, Live.children]),
   (merge_child_count_check ['R'] [.widget ['X'] [] none]
      (.mk ['R'] [.mk ['A'] [], .mk ['X'] []]) rfl).2.1
      (by simp [is_widget, Live.children])⟩

/-! ## The root-widget check -/

/-- C3: once the line loop has succeeded, more than one top-level widget
makes `parse` fail with the structural assertion (a constructor distinct
from the classification error); exactly one top-level widget becomes
`rootRule`; none leaves `rootRule` absent with `parse` succeeding. -/
theorem parse_root_widget_check (lines : List (List Char)) (st : PState)
    (h : runLines initState 1 lines = .ok st) :
    (1 < (rootWidgets st.nodes).length → parse lines = .error .assertMultipleRoots) ∧
    (∀ i, rootWidgets st.nodes = [i] →
      parse lines = .ok ⟨st.nodes, rootElements st.nodes, some i⟩ ∧
        isWidgetIdx st.nodes i = true) ∧
    (rootWidgets st.nodes = [] →
      parse lines = .ok ⟨st.nodes, rootElements st.nodes, none⟩) ∧
    (∀ (n : Nat) (l : List Char), (Err.assertMultipleRoots : Err) ≠ .parsing n l) := by
  refine ⟨?_, ?_, ?_, ?_⟩
  · intro hgt
    unfold parse
    rw [h]
    simp only []
    rw [if_neg (by omega)]
  · intro i hi
    constructor
    · unfold parse
      rw [h]
      simp [hi]
    · have hmem : i ∈ rootWidgets st.nodes := by
        rw [hi]
        exact List.mem_singleton_self i
      exact (List.mem_filter.mp hmem).2
  · intro hnil
    unfold parse
    rw [h]
    simp [hnil]
  · intro n l hc
    cases hc

/-- Witness for C3: the two-top-level-widget file is rejected with the
structural error, and a single-widget file selects it as the root rule. -/
theorem parse_root_widget_check_witness :
    parse ["A:\n".data, "B:\n".data] = .error .assertMultipleRoots ∧
    parse ["A:\n".data] =
      .ok ⟨[⟨.root, -1, none, [1]⟩, ⟨.elem (.widget ['A']), 0, some 0, []⟩], [1], some 1⟩ :=
  ⟨(parse_root_widget_check ["A:\n".data, "B:\n".data]
      ⟨[⟨.root, -1, none, [1, 2]⟩, ⟨.elem (.widget ['A']), 0, some 0, []⟩,
        ⟨.elem (.widget ['B']), 0, some 0, []⟩], 0, some 0, some 2⟩
      (by rfl)).1 (by decide),
   ((parse_root_widget_check ["A:\n".data]
      ⟨[⟨.root, -1, none, [1]⟩, ⟨.elem (.widget ['A']), 0, some 0, []⟩], 0, some 0, some 1⟩
      (by rfl)).2.1 1 (by rfl)).1⟩

/-! ## The upward walk on dedent -/

theorem walkUp_stop (nodes : List PNode) (fuel i : Nat) (w : Int) (nd : PNode)
    (hnd : nodes[i]? = some nd) (hlt : nd.indentLevel < w) :
    walkUp nodes fuel (some i) w = .ok i := by
  rw [walkUp.eq_def]
  simp only [hnd]
  rw [if_neg (by omega)]

theorem walkUp_step (nodes : List PNode) (fuel i : Nat) (w : Int) (nd : PNode) (j : Nat)
    (hnd : nodes[i]? = some nd) (hge : w ≤ nd.indentLevel) (hp : nd.parent = some j) :
    walkUp nodes (fuel + 1) (some i) w = walkUp nodes fuel (some j) w := by
  rw [walkUp.eq_def]
  simp only [hnd, hp, if_pos hge]

theorem insert_attaches_to_walk_result (st : PState) (lineNo : Nat) (line : List Char)
    (ic : Nat) (ld : LineData) (p : Nat) (pn : PNode)
    (hcontent : (line.dropWhile pyIsSpace).isEmpty = false)
    (hind : indent_count (line.takeWhile pyIsSpace) line = .ok ic)
    (hcl : classify (line.dropWhile pyIsSpace) = some ld)
    (hlt : (ic : Int) < st.lastIndent)
    (hwalk : walkUp st.nodes (st.nodes.length + 1) st.currentRoot ic = .ok p)
    (hpn : st.nodes[p]? = some pn)
    (hhas : hasElements pn.kind = true) :
    processLine st lineNo line =
      .ok ⟨(st.nodes ++ [(⟨.elem ld, (ic : Int), some p, []⟩ : PNode)]).set p
            { pn with elements := pn.elements ++ [st.nodes.length] },
          (ic : Int), some p, some st.nodes.length⟩ := by
  have hplt : p < st.nodes.length := by
    have := List.getElem?_eq_some.mp hpn
    exact this.1
  unfold processLine
  simp only [hcontent, Bool.false_eq_true, if_false, hind, hcl]
  unfold insertElem
  simp only [if_pos hlt, hwalk, Except.map]
  have happ : (st.nodes ++ [(⟨.elem ld, (ic : Int), some p, []⟩ : PNode)])[p]? = some pn := by
    rw [List.getElem?_append]
    simp only [if_pos hplt]
    exact hpn
  simp [happ, hhas]

/-- C4: when a line dedents (indentation strictly below the previous
line's), the walk stops at the first ancestor whose recorded indentation is
strictly smaller, stepping through parents while it is at least the new
width, and the new element is attached to the node so reached; concretely,
for lines `A:`, `  B:`, `C:` the element C ends as a direct child of the
implicit root (a sibling of A), not a child of B. -/
theorem builder_walks_up_on_dedent :
    (∀ (nodes : List PNode) (fuel i : Nat) (w : Int) (nd : PNode),
      nodes[i]? = some nd → nd.indentLevel < w →
        walkUp nodes fuel (some i) w = .ok i) ∧
    (∀ (nodes : List PNode) (fuel i : Nat) (w : Int) (nd : PNode) (j : Nat),
      nodes[i]? = some nd → w ≤ nd.indentLevel → nd.parent = some j →
        walkUp nodes (fuel + 1) (some i) w = walkUp nodes fuel (some j) w) ∧
    (∀ (st : PState) (lineNo : Nat) (line : List Char) (ic : Nat) (ld : LineData)
        (p : Nat) (pn : PNode),
      (line.dropWhile pyIsSpace).isEmpty = false →
      indent_count (line.takeWhile pyIsSpace) line = .ok ic →
      classify (line.dropWhile pyIsSpace) = some ld →
      (ic : Int) < st.lastIndent →
      walkUp st.nodes (st.nodes.length + 1) st.currentRoot ic = .ok p →
      st.nodes[p]? = some pn →
      hasElements pn.kind = true →
        processLine st lineNo line =
          .ok ⟨(st.nodes ++ [(⟨.elem ld, (ic : Int), some p, []⟩ : PNode)]).set p
                { pn with elements := pn.elements ++ [st.nodes.length] },
              (ic : Int), some p, some st.nodes.length⟩) ∧
    (runLines initState 1 ["A:\n".data, "  B:\n".data, "C:\n".data] =
      .ok ⟨[⟨.root, -1, none, [1, 3]⟩,
            ⟨.elem (.widget ['A']), 0, some 0, [2]⟩,
            ⟨.elem (.widget ['B']), 2, some 1, []⟩,
            ⟨.elem (.widget ['C']), 0, some 0, []⟩], 0, some 0, some 3⟩) :=
  ⟨walkUp_stop, walkUp_step, insert_attaches_to_walk_result, by rfl⟩

/-- Witness for C4, on the state reached after `A:` and `  B:`: the walk
stops at the root (indentation -1 < 0), steps over A (indentation 0 >= 0),
and processing `C:` attaches element 3 to the root. -/
theorem builder_walks_up_on_dedent_witness :
    walkUp [(⟨.root, -1, none, [1]⟩ : PNode), ⟨.elem (.widget ['A']), 0, some 0, [2]⟩,
        ⟨.elem (.widget ['B']), 2, some 1, []⟩] 4 (some 0) 0 = .ok 0 ∧
    walkUp [(⟨.root, -1, none, [1]⟩ : PNode), ⟨.elem (.widget ['A']), 0, some 0, [2]⟩,
        ⟨.elem (.widget ['B']), 2, some 1, []⟩] 4 (some 1) 0 =
      walkUp [(⟨.root, -1, none, [1]⟩ : PNode), ⟨.elem (.widget ['A']), 0, some 0, [2]⟩,
        ⟨.elem (.widget ['B']), 2, some 1, []⟩] 3 (some 0) 0 ∧
    processLine ⟨[(⟨.root, -1, none, [1]⟩ : PNode), ⟨.elem (.widget ['A']), 0, some 0, [2]⟩,
        ⟨.elem (.widget ['B']), 2, some 1, []⟩], 2, some 1, some 2⟩ 3 "C:\n".data =
      .ok ⟨([(⟨.root, -1, none, [1]⟩ : PNode), ⟨.elem (.widget ['A']), 0, some 0, [2]⟩,
              ⟨.elem (.widget ['B']), 2, some 1, []⟩] ++
            [(⟨.elem (.widget ['C']), ((0 : Nat) : Int), some 0, []⟩ : PNode)]).set 0
            { (⟨.root, -1, none, [1]⟩ : PNode) with elements := [1] ++ [3] },
          ((0 : Nat) : Int), some 0, some 3⟩ :=
  ⟨builder_walks_up_on_dedent.1 _ 4 0 0 ⟨.root, -1, none, [1]⟩ (by rfl) (by decide),
   builder_walks_up_on_dedent.2.1 _ 3 1 0 ⟨.elem (.widget ['A']), 0, some 0, [2]⟩ 0
     (by rfl) (by decide) (by rfl),
   builder_walks_up_on_dedent.2.2.1 _ 3 "C:\n".data 0 (.widget ['C']) 0 ⟨.root, -1, none, [1]⟩
     (by rfl) (by rfl) (by rfl) (by decide) (by rfl) (by rfl) (by rfl)⟩

/-! ## The first line and the implicit root -/

/-- Counterexample to C8: a first line indented deeper than 0 does not
succeed; `new_element` is still `None` when the deeper-scope branch selects
it as parent, so parsing fails (`AttributeError` on `None`), instead of the
element becoming a child of the implicit root. -/
theorem first_line_indented_fails : parse ["  A:\n".data] = .error .attrNone := by
  rfl

/-- C8 amended: blank lines are skipped unchanged; the implicit root has
indentLevel -1; a first non-blank line of indentation width 0 becomes a
direct child of the implicit root; but a first non-blank line of positive
indentation width makes the parse fail with the `None`-dereference error,
because `last_indent` starts at 0 and `new_element` at `None`. -/
theorem first_line_depth_zero_amended :
    (∀ (st : PState) (n : Nat) (line : List Char),
      (line.dropWhile pyIsSpace).isEmpty = true → processLine st n line = .ok st) ∧
    (initState.nodes[0]? = some ⟨.root, -1, none, []⟩) ∧
    (∀ (line : List Char) (ls : List (List Char)) (ld : LineData),
      (line.dropWhile pyIsSpace).isEmpty = false →
      indent_count (line.takeWhile pyIsSpace) line = .ok 0 →
      classify (line.dropWhile pyIsSpace) = some ld →
        runLines initState 1 (line :: ls) =
          runLines ⟨[⟨.root, -1, none, [1]⟩, ⟨.elem ld, 0, some 0, []⟩], 0, some 0, some 1⟩
            2 ls) ∧
    (∀ (line : List Char) (ls : List (List Char)) (ic : Nat) (ld : LineData),
      (line.dropWhile pyIsSpace).isEmpty = false →
      indent_count (line.takeWhile pyIsSpace) line = .ok ic →
      classify (line.dropWhile pyIsSpace) = some ld →
      0 < ic →
        parse (line :: ls) = .error .attrNone) := by
  refine ⟨?_, by rfl, ?_, ?_⟩
  · intro st n line hblank
    unfold processLine
    simp [hblank]
  · intro line ls ld hcontent hind hcl
    rw [runLines.eq_def]
    unfold processLine
    simp only [hcontent, Bool.false_eq_true, if_false, hind, hcl]
    have : insertElem initState 0 ld =
        .ok ⟨[⟨.root, -1, none, [1]⟩, ⟨.elem ld, 0, some 0, []⟩], 0, some 0, some 1⟩ := by
      rfl
    rw [this]
  · intro line ls ic ld hcontent hind hcl hpos
    have h1 : ¬ ((ic : Int) < initState.lastIndent) := by
      simp only [initState]
      omega
    have h2 : initState.lastIndent < (ic : Int) := by
      simp only [initState]
      exact_mod_cast hpos
    have hstep : insertElem initState ic ld = .error .attrNone := by
      unfold insertElem
      simp only [if_neg h1, if_pos h2]
      rfl
    unfold parse
    rw [runLines.eq_def]
    unfold processLine
    simp only [hcontent, Bool.false_eq_true, if_false, hind, hcl, hstep]

/-- Witness for C8's amended statement, exercising each branch. -/
theorem first_line_depth_zero_amended_witness :
    processLine initState 1 "   \n".data = .ok initState ∧
    runLines initState 1 ["A:\n".data] =
      runLines ⟨[⟨.root, -1, none, [1]⟩, ⟨.elem (.widget ['A']), 0, some 0, []⟩],
        0, some 0, some 1⟩ 2 [] ∧
    parse ["  A:\n".data, "B:\n".data] = .error .attrNone :=
  ⟨first_line_depth_zero_amended.1 initState 1 "   \n".data (by rfl),
   first_line_depth_zero_amended.2.2.1 "A:\n".data [] (.widget ['A'])
     (by rfl) (by rfl) (by rfl),
   first_line_depth_zero_amended.2.2.2 "  A:\n".data ["B:\n".data] 2 (.widget ['A'])
     (by rfl) (by rfl) (by rfl) (by decide)⟩

/-! ## Indentation characters -/

/-- Counterexample to C7: a tab in the leading whitespace raises nothing;
`indent_count` expands it to spaces (tab stop 8), so the tab-indented line
parses fine with indentation width 8. -/
theorem tab_indent_parses :
    parse ["foo:\n".data, "\tbar: 1\n".data] =
      .ok ⟨[⟨.root, -1, none, [1]⟩,
            ⟨.elem (.widget "foo".data), 0, some 0, [2]⟩,
            ⟨.elem (.property "bar".data ['1']), 8, some 1, []⟩], [1], some 1⟩ := by
  rfl

/-- C7 amended: leading whitespace whose tab expansion is all spaces (in
particular any mix of spaces and tabs) yields its expanded length with no
error; a leading-whitespace character other than space or tab survives
expansion and raises the invalid-indentation error, which reports the
offending character, the indentation text and the raw line — not the line
number — and is a different error from the line-numbered classification
error. -/
theorem indentation_error_amended :
    (∀ s line : List Char, (expandtabs s).all (fun c => c = ' ') = true →
      indent_count s line = .ok (expandtabs s).length) ∧
    (∀ (s line pre suf : List Char) (c : Char),
      expandtabs s = pre ++ c :: suf → pre.all (fun c => c = ' ') = true → c ≠ ' ' →
      indent_count s line = .error (.invalidIndent c s line)) ∧
    (parse ["foo:\n".data, " \x0cbar: 1\n".data] =
      .error (.invalidIndent '\x0c' [' ', '\x0c'] " \x0cbar: 1\n".data)) ∧
    (∀ (n : Nat) (l s l2 : List Char) (c : Char),
      (Err.invalidIndent c s l2 : Err) ≠ .parsing n l) := by
  refine ⟨?_, ?_, by rfl, ?_⟩
  · intro s line hall
    unfold indent_count
    have : (expandtabs s).find? (fun c => c ≠ ' ') = none := by
      rw [List.find?_eq_none]
      intro x hx
      have := List.all_eq_true.mp hall x hx
      simp at this ⊢
      exact this
    rw [this]
  · intro s line pre suf c hsplit hpre hc
    unfold indent_count
    have hfind : ∀ pre : List Char, pre.all (fun c => c = ' ') = true →
        (pre ++ c :: suf).find? (fun c => c ≠ ' ') = some c := by
      intro pre
      induction pre with
      | nil =>
        intro _
        rw [List.nil_append, List.find?_cons_of_pos]
        simp [hc]
      | cons p pre' ih =>
        intro hpre'
        have hp : p = ' ' := by
          have := List.all_eq_true.mp hpre' p (List.mem_cons_self p pre')
          simpa using this
        rw [List.cons_append, List.find?_cons_of_neg]
        · exact ih (by
            rw [List.all_eq_true] at hpre' ⊢
            intro x hx
            exact hpre' x (List.mem_cons_of_mem p hx))
        · simp [hp]
    rw [hsplit, hfind pre hpre]
  · intro n l s l2 c hcontra
    cases hcontra

/-- Witness for C7's amended statement: space-and-tab indentation counts as
9 columns; a form-feed character is rejected with the char, indentation and
line text. -/
theorem indentation_error_amended_witness :
    indent_count [' ', '\t'] " \tx".data = .ok 8 ∧
    indent_count [' ', '\x0c'] " \x0cbar: 1\n".data =
      .error (.invalidIndent '\x0c' [' ', '\x0c'] " \x0cbar: 1\n".data) :=
  ⟨indentation_error_amended.1 [' ', '\t'] " \tx".data (by rfl),
   indentation_error_amended.2.1 [' ', '\x0c'] " \x0cbar: 1\n".data [' '] []
     '\x0c' (by rfl) (by rfl) (by decide)⟩

/-! ## Comments and nesting -/

/-- Counterexample to C9: a line indented deeper than a preceding comment
line is not attached as the comment's child; `KvComment` has no `elements`
attribute, so appending raises `AttributeError` and parsing fails. -/
theorem deeper_line_after_comment_fails :
    parse ["#c\n".data, "  B:\n".data] = .error .attrNoElements := by
  rfl

/-- C9 amended: a comment line does create an ordinary tree node, at its
indentation, attached like any other element; but when the next line is
strictly deeper, the builder selects that comment node as the parent and
then fails with the missing-`elements` attribute error (only widget nodes
and the implicit root can hold children), instead of attaching the new
element as the comment's child. -/
theorem comment_nesting_amended :
    (∀ (st : PState) (lineNo : Nat) (line : List Char) (ic : Nat) (t : List Char)
        (p : Nat) (pn : PNode),
      (line.dropWhile pyIsSpace).isEmpty = false →
      indent_count (line.takeWhile pyIsSpace) line = .ok ic →
      classify (line.dropWhile pyIsSpace) = some (.comment t) →
      (ic : Int) = st.lastIndent →
      st.currentRoot = some p →
      st.nodes[p]? = some pn →
      hasElements pn.kind = true →
        processLine st lineNo line =
          .ok ⟨(st.nodes ++ [(⟨.elem (.comment t), (ic : Int), some p, []⟩ : PNode)]).set p
                { pn with elements := pn.elements ++ [st.nodes.length] },
              (ic : Int), some p, some st.nodes.length⟩) ∧
    (∀ (st : PState) (lineNo : Nat) (line : List Char) (ic : Nat) (ld : LineData)
        (x : Nat) (xd : PNode) (t : List Char),
      (line.dropWhile pyIsSpace).isEmpty = false →
      indent_count (line.takeWhile pyIsSpace) line = .ok ic →
      classify (line.dropWhile pyIsSpace) = some ld →
      st.lastIndent < (ic : Int) →
      st.newElement = some x →
      st.nodes[x]? = some xd →
      xd.kind = .elem (.comment t) →
        processLine st lineNo line = .error .attrNoElements) := by
  constructor
  · intro st lineNo line ic t p pn hcontent hind hcl heq hcur hpn hhas
    unfold processLine
    simp only [hcontent, Bool.false_eq_true, if_false, hind, hcl]
    unfold insertElem
    have h1 : ¬ ((ic : Int) < st.lastIndent) := by omega
    have h2 : ¬ (st.lastIndent < (ic : Int)) := by omega
    simp only [if_neg h1, if_neg h2, hcur]
    have hplt : p < st.nodes.length := (List.getElem?_eq_some.mp hpn).1
    have happ : (st.nodes ++ [(⟨.elem (.comment t), (ic : Int), some p, []⟩ : PNode)])[p]? =
        some pn := by
      rw [List.getElem?_append]
      simp only [if_pos hplt]
      exact hpn
    simp only [happ, hhas, if_true]
  · intro st lineNo line ic ld x xd t hcontent hind hcl hlt hnew hx hkind
    unfold processLine
    simp only [hcontent, Bool.false_eq_true, if_false, hind, hcl]
    unfold insertElem
    have h1 : ¬ ((ic : Int) < st.lastIndent) := by omega
    simp only [if_neg h1, if_pos hlt, hnew]
    have hxlt : x < st.nodes.length := (List.getElem?_eq_some.mp hx).1
    have happ : (st.nodes ++ [(⟨.elem ld, (ic : Int), some x, []⟩ : PNode)])[x]? = some xd := by
      rw [List.getElem?_append]
      simp only [if_pos hxlt]
      exact hx
    simp only [happ, hkind]
    rfl

/-- Witness for C9's amended statement: the comment on line 1 becomes node 1
under the root; the deeper `  B:` line then fails on the comment node. -/
theorem comment_nesting_amended_witness :
    processLine initState 1 "#c\n".data =
      .ok ⟨(initState.nodes ++ [(⟨.elem (.comment ['c']), ((0 : Nat) : Int), some 0, []⟩ :
              PNode)]).set 0
            { (⟨.root, -1, none, []⟩ : PNode) with elements := [] ++ [1] },
          ((0 : Nat) : Int), some 0, some 1⟩ ∧
    processLine ⟨[⟨.root, -1, none, [1]⟩, ⟨.elem (.comment ['c']), 0, some 0, []⟩],
        0, some 0, some 1⟩ 2 "  B:\n".data = .error .attrNoElements :=
  ⟨comment_nesting_amended.1 initState 1 "#c\n".data 0 ['c'] 0 ⟨.root, -1, none, []⟩
     (by rfl) (by rfl) (by rfl) (by decide) (by rfl) (by rfl) (by rfl),
   comment_nesting_amended.2 ⟨[⟨.root, -1, none, [1]⟩, ⟨.elem (.comment ['c']), 0, some 0, []⟩],
       0, some 0, some 1⟩ 2 "  B:\n".data 2 (.widget ['B']) 1
     ⟨.elem (.comment ['c']), 0, some 0, []⟩ ['c']
     (by rfl) (by rfl) (by rfl) (by decide) (by rfl) (by rfl) (by rfl)⟩

/-! ## The parent-indentation invariant -/

theorem walkUp_parent_none (nodes : List PNode) (fuel i : Nat) (w : Int) (nd : PNode)
    (hnd : nodes[i]? = some nd) (hge : w ≤ nd.indentLevel) (hp : nd.parent = none) :
    walkUp nodes fuel (some i) w = .error .assertParentNone := by
  rw [walkUp.eq_def]
  simp only [hnd, hp, if_pos hge]

theorem walkUp_fuel_zero (nodes : List PNode) (i : Nat) (w : Int) (nd : PNode) (j : Nat)
    (hnd : nodes[i]? = some nd) (hge : w ≤ nd.indentLevel) (hp : nd.parent = some j) :
    walkUp nodes 0 (some i) w = .error .fuelOut := by
  rw [walkUp.eq_def]
  simp only [hnd, hp, if_pos hge]

theorem walkUp_lands_below : ∀ (fuel : Nat) (nodes : List PNode) (c : Nat) (w : Int) (p : Nat),
    parentIndentOK nodes →
    walkUp nodes fuel (some c) w = .ok p →
    ∃ pd : PNode, nodes[p]? = some pd ∧ pd.indentLevel < w := by
  intro fuel
  induction fuel with
  | zero =>
    intro nodes c w p hpar h
    cases hc : nodes[c]? with
    | none =>
      rw [walkUp.eq_def] at h
      simp only [hc] at h
      cases h
    | some nd =>
      by_cases hlt : nd.indentLevel < w
      · rw [walkUp_stop nodes 0 c w nd hc hlt] at h
        cases h
        exact ⟨nd, hc, hlt⟩
      · cases hp : nd.parent with
        | none => rw [walkUp_parent_none nodes 0 c w nd hc (by omega) hp] at h; cases h
        | some j => rw [walkUp_fuel_zero nodes c w nd j hc (by omega) hp] at h; cases h
  | succ fuel ih =>
    intro nodes c w p hpar h
    cases hc : nodes[c]? with
    | none =>
      rw [walkUp.eq_def] at h
      simp only [hc] at h
      cases h
    | some nd =>
      by_cases hlt : nd.indentLevel < w
      · rw [walkUp_stop nodes (fuel + 1) c w nd hc hlt] at h
        cases h
        exact ⟨nd, hc, hlt⟩
      · cases hp : nd.parent with
        | none => rw [walkUp_parent_none nodes (fuel + 1) c w nd hc (by omega) hp] at h; cases h
        | some j =>
          rw [walkUp_step nodes fuel c w nd j hc (by omega) hp] at h
          exact ih nodes j w p hpar h

theorem set_append_lookup (nodes : List PNode) (ci : Nat) (pn x : PNode) (es : List Nat)
    (hci : nodes[ci]? = some pn) (j : Nat) (pd : PNode) (hj : nodes[j]? = some pd) :
    ∃ pd' : PNode, ((nodes ++ [x]).set ci { pn with elements := es })[j]? = some pd' ∧
      pd'.indentLevel = pd.indentLevel ∧ pd'.parent = pd.parent ∧ pd'.kind = pd.kind := by
  have hjlt : j < nodes.length := (List.getElem?_eq_some.mp hj).1
  by_cases heq : ci = j
  · subst heq
    obtain rfl : pn = pd := by
      rw [hci] at hj
      cases hj
      rfl
    refine ⟨{ pn with elements := es }, ?_, rfl, rfl, rfl⟩
    have hlen : ci < (nodes ++ [x]).length := by
      rw [List.length_append]
      omega
    rw [List.getElem?_set]
    simp
    omega
  · refine ⟨pd, ?_, rfl, rfl, rfl⟩
    rw [List.getElem?_set]
    simp only [heq, if_false]
    rw [List.getElem?_append]
    rw [if_pos hjlt]
    exact hj

theorem set_append_lookup_new (nodes : List PNode) (ci : Nat) (pn' x : PNode)
    (hci : ci < nodes.length) :
    ((nodes ++ [x]).set ci pn')[nodes.length]? = some x := by
  rw [List.getElem?_set]
  rw [if_neg (by omega)]
  exact List.getElem?_concat_length nodes x

theorem set_append_lookup_cases (nodes : List PNode) (ci : Nat) (pn x : PNode) (es : List Nat)
    (hci : nodes[ci]? = some pn) (i : Nat) (nd : PNode)
    (h : ((nodes ++ [x]).set ci { pn with elements := es })[i]? = some nd) :
    (i = nodes.length ∧ nd = x) ∨
    (i = ci ∧ nd = { pn with elements := es }) ∨
    (i ≠ ci ∧ nodes[i]? = some nd) := by
  have hcilt : ci < nodes.length := (List.getElem?_eq_some.mp hci).1
  rw [List.getElem?_set] at h
  by_cases hic : ci = i
  · subst hic
    right; left
    have hlen : ci < (nodes ++ [x]).length := by
      rw [List.length_append]
      omega
    simp only [if_pos rfl, if_pos hlen] at h
    cases h
    exact ⟨rfl, rfl⟩
  · rw [if_neg hic] at h
    rw [List.getElem?_append] at h
    by_cases hlt : i < nodes.length
    · right; right
      rw [if_pos hlt] at h
      exact ⟨fun he => hic he.symm, h⟩
    · left
      rw [if_neg hlt] at h
      have hz : i - nodes.length = 0 := by
        by_contra hne
        rw [List.getElem?_eq_none (by
          simp only [List.length_cons, List.length_nil]
          omega)] at h
        cases h
      rw [hz] at h
      simp only [List.getElem?_cons_zero] at h
      cases h
      constructor
      · omega
      · rfl

theorem inv_step (st : PState) (ic : Nat) (ld : LineData) (ci : Nat) (pn : PNode)
    (hinv : Inv st) (hci : st.nodes[ci]? = some pn) (hlt : pn.indentLevel < (ic : Int)) :
    Inv ⟨(st.nodes ++ [(⟨.elem ld, (ic : Int), some ci, []⟩ : PNode)]).set ci
          { pn with elements := pn.elements ++ [st.nodes.length] },
        (ic : Int), some ci, some st.nodes.length⟩ := by
  have hcilt : ci < st.nodes.length := (List.getElem?_eq_some.mp hci).1
  constructor
  · obtain ⟨rt, hrt, hrti, hrtp, hrtk⟩ := hinv.root0
    obtain ⟨rt', hrt', h1, h2, h3⟩ := set_append_lookup st.nodes ci pn _ _ hci 0 rt hrt
    exact ⟨rt', hrt', by rw [h1, hrti], by rw [h2, hrtp], by rw [h3, hrtk]⟩
  · intro i j nd hnd hpar
    rcases set_append_lookup_cases st.nodes ci pn _ _ hci i nd hnd with
      ⟨hi, hnd'⟩ | ⟨hi, hnd'⟩ | ⟨hne, hold⟩
    · subst hnd'
      simp only at hpar
      cases hpar
      obtain ⟨pd', hpd', h1, h2, h3⟩ :=
        set_append_lookup st.nodes ci pn _ _ hci ci pn hci
      exact ⟨pd', hpd', by simp only [h1]; exact hlt⟩
    · subst hnd'
      simp only at hpar
      obtain ⟨pd, hpd, hpdlt⟩ := hinv.parentOK ci j pn hci hpar
      obtain ⟨pd', hpd', h1, h2, h3⟩ := set_append_lookup st.nodes ci pn _ _ hci j pd hpd
      exact ⟨pd', hpd', by simp only [h1]; exact hpdlt⟩
    · obtain ⟨pd, hpd, hpdlt⟩ := hinv.parentOK i j nd hold hpar
      obtain ⟨pd', hpd', h1, h2, h3⟩ := set_append_lookup st.nodes ci pn _ _ hci j pd hpd
      exact ⟨pd', hpd', by rw [h1]; exact hpdlt⟩
  · intro c hc
    cases hc
    obtain ⟨pd', hpd', h1, h2, h3⟩ := set_append_lookup st.nodes ci pn _ _ hci ci pn hci
    exact ⟨pd', hpd', by rw [h1]; exact hlt⟩
  · intro xn hx
    cases hx
    refine ⟨⟨.elem ld, (ic : Int), some ci, []⟩, ?_, rfl⟩
    exact set_append_lookup_new st.nodes ci _ _ hcilt

theorem insertElem_inv (st : PState) (ic : Nat) (ld : LineData) (st' : PState)
    (hinv : Inv st) (h : insertElem st ic ld = .ok st') : Inv st' := by
  unfold insertElem at h
  simp only [] at h
  split at h
  next e heq => cases h
  next cr heq =>
    split at h
    next => cases h
    next ci =>
      split at h
      next => cases h
      next pn hpn =>
        split at h
        next hhas =>
          have hmain : ∃ pd : PNode, st.nodes[ci]? = some pd ∧ pd.indentLevel < (ic : Int) := by
            by_cases h1 : (ic : Int) < st.lastIndent
            · rw [if_pos h1] at heq
              cases hcr : st.currentRoot with
              | none =>
                rw [hcr] at heq
                rw [walkUp.eq_def] at heq
                simp [Except.map] at heq
              | some c =>
                rw [hcr] at heq
                cases hw : walkUp st.nodes (st.nodes.length + 1) (some c) ic with
                | error e => rw [hw] at heq; simp [Except.map] at heq
                | ok p =>
                  rw [hw] at heq
                  simp only [Except.map] at heq
                  cases heq
                  exact walkUp_lands_below _ _ _ _ _ hinv.parentOK hw
            · by_cases h2 : st.lastIndent < (ic : Int)
              · rw [if_neg h1, if_pos h2] at heq
                cases heq'' : st.newElement with
                | none => rw [heq''] at heq; cases heq
                | some x =>
                  rw [heq''] at heq
                  cases heq
                  obtain ⟨xd, hxd, hxde⟩ := hinv.newEq _ heq''
                  exact ⟨xd, hxd, by omega⟩
              · rw [if_neg h1, if_neg h2] at heq
                cases heq'' : st.currentRoot with
                | none => rw [heq''] at heq; cases heq
                | some c =>
                  rw [heq''] at heq
                  cases heq
                  obtain ⟨cd, hcd, hcdl⟩ := hinv.curLt _ heq''
                  exact ⟨cd, hcd, by omega⟩
          obtain ⟨pd, hpd, hpdlt⟩ := hmain
          have hcilt : ci < st.nodes.length := (List.getElem?_eq_some.mp hpd).1
          have hsame : (st.nodes ++
              [(⟨.elem ld, (ic : Int), some ci, []⟩ : PNode)])[ci]? = some pd := by
            rw [List.getElem?_append, if_pos hcilt]
            exact hpd
          rw [hsame] at hpn
          cases hpn
          cases h
          exact inv_step st ic ld ci _ hinv hpd hpdlt
        next => cases h

theorem processLine_inv (st : PState) (n : Nat) (line : List Char) (st' : PState)
    (hinv : Inv st) (h : processLine st n line = .ok st') : Inv st' := by
  unfold processLine at h
  cases hb : (line.dropWhile pyIsSpace).isEmpty with
  | true =>
    simp only [hb, if_true] at h
    cases h
    exact hinv
  | false =>
    simp only [hb, Bool.false_eq_true, if_false] at h
    cases hic : indent_count (line.takeWhile pyIsSpace) line with
    | error e => rw [hic] at h; cases h
    | ok ic =>
      rw [hic] at h
      cases hcl : classify (line.dropWhile pyIsSpace) with
      | none => rw [hcl] at h; cases h
      | some ld =>
        rw [hcl] at h
        exact insertElem_inv st ic ld st' hinv h

theorem runLines_inv : ∀ (lines : List (List Char)) (st : PState) (n : Nat) (st' : PState),
    Inv st → runLines st n lines = .ok st' → Inv st' := by
  intro lines
  induction lines with
  | nil =>
    intro st n st' hinv h
    rw [runLines.eq_def] at h
    cases h
    exact hinv
  | cons l ls ih =>
    intro st n st' hinv h
    rw [runLines.eq_def] at h
    simp only [] at h
    cases hp : processLine st n l with
    | error e => rw [hp] at h; cases h
    | ok st1 =>
      rw [hp] at h
      exact ih st1 (n + 1) st' (processLine_inv st n l st1 hinv hp) h

theorem initState_inv : Inv initState := by
  constructor
  · exact ⟨⟨.root, -1, none, []⟩, by rfl, rfl, rfl, rfl⟩
  · intro i j nd hnd hpar
    have : i = 0 := by
      have := (List.getElem?_eq_some.mp hnd).1
      simp [initState] at this
      omega
    subst this
    simp [initState] at hnd
    rw [← hnd] at hpar
    cases hpar
  · intro c hc
    simp only [initState] at hc
    cases hc
    exact ⟨⟨.root, -1, none, []⟩, by rfl, by decide⟩
  · intro x hx
    simp [initState] at hx

/-- C5: on every successful parse, the implicit root is node 0 with
indentLevel -1 and no parent, and every node's recorded indentLevel is
strictly greater than its parent's. -/
theorem parse_parent_indent_invariant (lines : List (List Char)) (r : ParseResult)
    (h : parse lines = .ok r) :
    (∃ rt : PNode, r.nodes[0]? = some rt ∧ rt.indentLevel = -1 ∧ rt.parent = none) ∧
    parentIndentOK r.nodes := by
  unfold parse at h
  cases hr : runLines initState 1 lines with
  | error e => rw [hr] at h; cases h
  | ok st =>
    rw [hr] at h
    simp only [] at h
    have hinv := runLines_inv lines initState 1 st initState_inv hr
    by_cases hle : (rootWidgets st.nodes).length ≤ 1
    · rw [if_pos hle] at h
      cases h
      obtain ⟨rt, h0, h1, h2, h3⟩ := hinv.root0
      exact ⟨⟨rt, h0, h1, h2⟩, hinv.parentOK⟩
    · rw [if_neg hle] at h
      cases h

/-- Witness for C5 on a concrete file with nesting and a dedent. -/
theorem parse_parent_indent_invariant_witness :
    parse ["A:\n".data, "  B:\n".data, "    c: 1\n".data, "  d: 2\n".data] =
      .ok ⟨[⟨.root, -1, none, [1]⟩,
            ⟨.elem (.widget ['A']), 0, some 0, [2, 4]⟩,
            ⟨.elem (.widget ['B']), 2, some 1, [3]⟩,
            ⟨.elem (.property ['c'] ['1']), 4, some 2, []⟩,
            ⟨.elem (.property ['d'] ['2']), 2, some 1, []⟩], [1], some 1⟩ ∧
    ((∃ rt : PNode,
        ([(⟨.root, -1, none, [1]⟩ : PNode),
          ⟨.elem (.widget ['A']), 0, some 0, [2, 4]⟩,
          ⟨.elem (.widget ['B']), 2, some 1, [3]⟩,
          ⟨.elem (.property ['c'] ['1']), 4, some 2, []⟩,
          ⟨.elem (.property ['d'] ['2']), 2, some 1, []⟩])[0]? = some rt ∧
        rt.indentLevel = -1 ∧ rt.parent = none) ∧
      parentIndentOK
        [(⟨.root, -1, none, [1]⟩ : PNode),
         ⟨.elem (.widget ['A']), 0, some 0, [2, 4]⟩,
         ⟨.elem (.widget ['B']), 2, some 1, [3]⟩,
         ⟨.elem (.property ['c'] ['1']), 4, some 2, []⟩,
         ⟨.elem (.property ['d'] ['2']), 2, some 1, []⟩]) :=
  ⟨by rfl,
   parse_parent_indent_invariant
     ["A:\n".data, "  B:\n".data, "    c: 1\n".data, "  d: 2\n".data]
     ⟨[⟨.root, -1, none, [1]⟩,
       ⟨.elem (.widget ['A']), 0, some 0, [2, 4]⟩,
       ⟨.elem (.widget ['B']), 2, some 1, [3]⟩,
       ⟨.elem (.property ['c'] ['1']), 4, some 2, []⟩,
       ⟨.elem (.property ['d'] ['2']), 2, some 1, []⟩], [1], some 1⟩ (by rfl)⟩

/-! ## Classification against the specified shapes -/

theorem span_append (p : Char → Bool) : ∀ (a b : List Char),
    (∀ x ∈ a, p x = true) → (∀ c, b.head? = some c → p c = false) →
    (a ++ b).takeWhile p = a ∧ (a ++ b).dropWhile p = b := by
  intro a
  induction a with
  | nil =>
    intro b _ hb
    constructor
    · cases b with
      | nil => rfl
      | cons c t =>
        rw [List.nil_append, List.takeWhile_cons]
        simp [hb c rfl]
    · cases b with
      | nil => rfl
      | cons c t =>
        rw [List.nil_append, List.dropWhile_cons]
        simp [hb c rfl]
  | cons x a ih =>
    intro b ha hb
    have hx : p x = true := ha x (List.mem_cons_self x a)
    obtain ⟨h1, h2⟩ := ih b (fun y hy => ha y (List.mem_cons_of_mem x hy)) hb
    constructor
    · rw [List.cons_append, List.takeWhile_cons]
      simp only [hx, if_true]
      rw [h1]
    · rw [List.cons_append, List.dropWhile_cons]
      simp only [hx, if_true]
      exact h2

theorem dropWhile_append_all (p : Char → Bool) : ∀ (u v : List Char),
    (∀ x ∈ u, p x = true) → (u ++ v).dropWhile p = v.dropWhile p := by
  intro u
  induction u with
  | nil => intro v _; rfl
  | cons x u ih =>
    intro v hu
    rw [List.cons_append, List.dropWhile_cons]
    simp only [hu x (List.mem_cons_self x u), if_true]
    exact ih v (fun y hy => hu y (List.mem_cons_of_mem x hy))

theorem head?_dropWhile_false (p : Char → Bool) : ∀ (l : List Char) (c : Char),
    (l.dropWhile p).head? = some c → p c = false := by
  intro l
  induction l with
  | nil => intro c h; cases h
  | cons x t ih =>
    intro c h
    rw [List.dropWhile_cons] at h
    by_cases hx : p x = true
    · rw [if_pos hx] at h
      exact ih c h
    · rw [if_neg hx] at h
      cases h
      cases hpx : p x
      · rfl
      · exact absurd hpx hx

theorem rstrip_append_ws (a ws : List Char) (h : ∀ x ∈ ws, pyIsSpace x = true) :
    rstrip (a ++ ws) = rstrip a := by
  unfold rstrip
  rw [List.reverse_append]
  rw [dropWhile_append_all pyIsSpace ws.reverse a.reverse
    (fun x hx => h x (List.mem_reverse.mp hx))]

theorem rstrip_eq_self (l : List Char) (h : ∀ c, l.getLast? = some c → pyIsSpace c = false) :
    rstrip l = l := by
  unfold rstrip
  cases hr : l.reverse with
  | nil =>
    have : l = [] := by simpa using congrArg List.reverse hr
    simp [this]
  | cons c t =>
    have hlast : l.getLast? = some c := by
      rw [← List.head?_reverse, hr]
      rfl
    rw [List.dropWhile_cons]
    simp only [h c hlast, Bool.false_eq_true, if_false]
    rw [← hr, List.reverse_reverse]

theorem rstrip_decomp (l : List Char) :
    ∃ ws, l = rstrip l ++ ws ∧ (∀ x ∈ ws, pyIsSpace x = true) ∧
      (∀ c, (rstrip l).getLast? = some c → pyIsSpace c = false) := by
  refine ⟨(l.reverse.takeWhile pyIsSpace).reverse, ?_, ?_, ?_⟩
  · conv_lhs => rw [← List.reverse_reverse l,
      ← List.takeWhile_append_dropWhile (p := pyIsSpace) (l := l.reverse)]
    rw [List.reverse_append]
    rfl
  · intro x hx
    exact List.mem_takeWhile_imp (List.mem_reverse.mp hx)
  · intro c hc
    unfold rstrip at hc
    rw [List.getLast?_reverse] at hc
    exact head?_dropWhile_false pyIsSpace l.reverse c hc

theorem rstrip_head (l : List Char) (c : Char) (hc : l.head? = some c)
    (hns : pyIsSpace c = false) : (rstrip l).head? = some c := by
  obtain ⟨ws, hdecomp, hws, _⟩ := rstrip_decomp l
  cases hr : rstrip l with
  | nil =>
    rw [hr, List.nil_append] at hdecomp
    subst hdecomp
    cases hcm : l.head? with
    | none => rw [hcm] at hc; cases hc
    | some d =>
      rw [hcm] at hc
      cases hc
      have : c ∈ l := List.mem_of_mem_head? hcm
      rw [hws c this] at hns
      cases hns
  | cons d t =>
    rw [hr] at hdecomp
    rw [hdecomp, List.cons_append] at hc
    simpa using hc

theorem dropTrailingNl_no_nl (content : List Char) (hsl : singleLine content)
    (a r : List Char) (hsplit : content = a ++ r) :
    ∀ x ∈ dropTrailingNl r, x ≠ '\n' := by
  obtain ⟨body, hbody, hcase⟩ := hsl
  have hmem_body : '\n' ∉ body := by
    simp at hbody
    exact hbody
  cases hcase with
  | inl heq =>
    intro x hx hxeq
    subst hxeq
    have hxr : '\n' ∈ r := by
      unfold dropTrailingNl at hx
      by_cases hlast : r.getLast? = some '\n'
      · rw [if_pos hlast] at hx
        exact List.mem_of_mem_dropLast hx
      · rw [if_neg hlast] at hx
        exact hx
    exact hmem_body (by
      rw [← heq, hsplit]
      exact List.mem_append_right a hxr)
  | inr heq =>
    intro x hx hxeq
    subst hxeq
    cases hr : r with
    | nil =>
      rw [hr] at hx
      cases hx
    | cons r0 rt =>
      have hrne : r ≠ [] := by rw [hr]; intro hc; cases hc
      have hrlast : r.getLast? = some '\n' := by
        have h1 : content.getLast? = some '\n' := by
          rw [heq]
          exact List.getLast?_concat body
        rw [hsplit, List.getLast?_append_of_ne_nil a hrne] at h1
        exact h1
      unfold dropTrailingNl at hx
      rw [if_pos hrlast] at hx
      have hbodysplit : a ++ r.dropLast = body := by
        have h2 : content.dropLast = body := by
          rw [heq]
          exact List.dropLast_concat
        rw [hsplit, List.dropLast_append_of_ne_nil a hrne] at h2
        exact h2
      exact hmem_body (by
        rw [← hbodysplit]
        exact List.mem_append_right a hx)

theorem word_not_space (c : Char) (h : pyIsWord c = true) : pyIsSpace c = false := by
  cases hs : pyIsSpace c
  · rfl
  · exfalso
    unfold pyIsSpace at hs
    unfold pyIsWord at h
    rcases Bool.or_eq_true_iff.mp hs with h1 | h1
    · rcases Bool.or_eq_true_iff.mp h1 with h2 | h2
      · rcases Bool.or_eq_true_iff.mp h2 with h3 | h3
        · rcases Bool.or_eq_true_iff.mp h3 with h4 | h4
          · rcases Bool.or_eq_true_iff.mp h4 with h5 | h5
            · rw [decide_eq_true_iff.mp h5] at h; simp [Char.isAlphanum, Char.isAlpha,
                Char.isDigit, Char.isUpper, Char.isLower] at h
            · rw [decide_eq_true_iff.mp h5] at h; simp [Char.isAlphanum, Char.isAlpha,
                Char.isDigit, Char.isUpper, Char.isLower] at h
          · rw [decide_eq_true_iff.mp h4] at h; simp [Char.isAlphanum, Char.isAlpha,
              Char.isDigit, Char.isUpper, Char.isLower] at h
        · rw [decide_eq_true_iff.mp h3] at h; simp [Char.isAlphanum, Char.isAlpha,
            Char.isDigit, Char.isUpper, Char.isLower] at h
      · rw [decide_eq_true_iff.mp h2] at h; simp [Char.isAlphanum, Char.isAlpha,
          Char.isDigit, Char.isUpper, Char.isLower] at h
    · rw [decide_eq_true_iff.mp h1] at h; simp [Char.isAlphanum, Char.isAlpha,
        Char.isDigit, Char.isUpper, Char.isLower] at h

theorem rstrip_cons_nonspace (c : Char) (l : List Char) (hc : pyIsSpace c = false) :
    rstrip (c :: l) = c :: rstrip l := by
  obtain ⟨ws, hdecomp, hws, hlast⟩ := rstrip_decomp l
  conv_lhs => rw [hdecomp]
  rw [show c :: (rstrip l ++ ws) = (c :: rstrip l) ++ ws from rfl]
  rw [rstrip_append_ws _ _ hws]
  apply rstrip_eq_self
  intro d hd
  cases hq : rstrip l with
  | nil =>
    rw [hq] at hd
    cases hd
    exact hc
  | cons q0 qt =>
    rw [hq] at hd
    rw [show c :: q0 :: qt = [c] ++ q0 :: qt from rfl,
      List.getLast?_append_of_ne_nil [c] (by intro hx; cases hx)] at hd
    apply hlast
    rw [hq]
    exact hd

theorem rstrip_is_prefix (l : List Char) :
    ∃ ws, l = rstrip l ++ ws := by
  obtain ⟨ws, hdecomp, _, _⟩ := rstrip_decomp l
  exact ⟨ws, hdecomp⟩

theorem commentRE_hash (rest : List Char)
    (hnl : ∀ x ∈ dropTrailingNl rest, x ≠ '\n') :
    commentRE ('#' :: rest) = some (dropTrailingNl rest) := by
  have hcont : (dropTrailingNl rest).contains '\n' = false := by
    simp
    intro hmem
    exact hnl '\n' hmem rfl
  unfold commentRE
  simp only [hcont, Bool.false_eq_true, if_false]

theorem commentRE_not_hash (c : Char) (rest : List Char) (hc : c ≠ '#') :
    commentRE (c :: rest) = none := by
  rw [commentRE.eq_def]
  split
  next heq =>
    injection heq with h1 h2
    exact absurd h1 hc
  next => rfl

theorem widgetRE_parts (s w r : List Char)
    (htake : s.takeWhile pyIsWord = w) (hdrop : s.dropWhile pyIsWord = r) :
    widgetRE s =
      (if w.isEmpty then none
       else match r with
         | ':' :: r2 => if r2.all pyIsSpace then some w else none
         | _ => none) := by
  unfold widgetRE takeWord
  rw [htake, hdrop]

theorem propRE_parts (s w r : List Char)
    (htake : s.takeWhile pyIsWord = w) (hdrop : s.dropWhile pyIsWord = r) :
    propRE s =
      (if w.isEmpty then none
       else match r with
         | ':' :: r2 =>
           let r3 := dropTrailingNl r2
           let tail := r3.dropWhile pyIsSpace
           if tail.contains '\n' then none
           else if !tail.isEmpty then some (w, tail)
           else if !r3.isEmpty then some (w, [r3.getLastD ' '])
           else none
         | _ => none) := by
  unfold propRE takeWord
  rw [htake, hdrop]

theorem classRE_not_lt (c : Char) (rest : List Char) (hc : c ≠ '<') :
    classRE (c :: rest) = none := by
  rw [classRE.eq_def]
  split
  next heq =>
    injection heq with h1 h2
    exact absurd h1 hc
  next => rfl

theorem classRE_parts (rest w r : List Char)
    (htake : rest.takeWhile pyIsWord = w) (hdrop : rest.dropWhile pyIsWord = r) :
    classRE ('<' :: rest) =
      (if w.isEmpty then none
       else match r with
         | '>' :: ':' :: r3 => if r3.all pyIsSpace then some w else none
         | _ => none) := by
  rw [classRE.eq_def]
  split
  next heq =>
    injection heq with h1 h2
    subst h2
    unfold takeWord
    rw [htake, hdrop]
  next hne =>
    exact absurd rfl (hne rest)

theorem specClassShape_not_lt (c : Char) (r : List Char) (hc : c ≠ '<') :
    specClassShape (c :: r) = false := by
  rw [specClassShape.eq_def]
  split
  next heq =>
    injection heq with h1 h2
    exact absurd h1 hc
  next => rfl

theorem specClassShape_lt (rest w r : List Char)
    (htake : rest.takeWhile pyIsWord = w) (hdrop : rest.dropWhile pyIsWord = r) :
    specClassShape ('<' :: rest) = (!w.isEmpty && (r == ['>', ':'])) := by
  rw [specClassShape.eq_def]
  split
  next heq =>
    injection heq with h1 h2
    subst h2
    rw [htake, hdrop]
  next hne =>
    exact absurd rfl (hne rest)

theorem specWidgetShape_parts (s w r : List Char)
    (htake : s.takeWhile pyIsWord = w) (hdrop : s.dropWhile pyIsWord = r) :
    specWidgetShape s = (!w.isEmpty && (r == [':'])) := by
  unfold specWidgetShape
  rw [htake, hdrop]

theorem specPropShape_parts (s w r : List Char)
    (htake : s.takeWhile pyIsWord = w) (hdrop : s.dropWhile pyIsWord = r) :
    specPropShape s = (!w.isEmpty && colonTail r) := by
  subst htake
  subst hdrop
  rfl

theorem colonTail_not_colon (d : Char) (t : List Char) (hd : d ≠ ':') :
    colonTail (d :: t) = false := by
  rw [colonTail.eq_def]
  split
  next heq =>
    injection heq with h1 h2
    exact absurd h1 hd
  next => rfl

theorem mem_of_getLast?_eq (l : List Char) (a : Char) (h : l.getLast? = some a) : a ∈ l := by
  have h2 : l.reverse.head? = some a := by
    rw [List.head?_reverse]
    exact h
  exact List.mem_reverse.mp (List.mem_of_mem_head? h2)

theorem rstrip_word_split (l : List Char) :
    rstrip l = l.takeWhile pyIsWord ++ rstrip (l.dropWhile pyIsWord) ∧
    (rstrip l).takeWhile pyIsWord = l.takeWhile pyIsWord ∧
    (rstrip l).dropWhile pyIsWord = rstrip (l.dropWhile pyIsWord) := by
  have hW : ∀ x ∈ l.takeWhile pyIsWord, pyIsWord x = true :=
    fun x hx => List.mem_takeWhile_imp hx
  have hRhead : ∀ c, (l.dropWhile pyIsWord).head? = some c → pyIsWord c = false :=
    head?_dropWhile_false pyIsWord l
  obtain ⟨ws, hRdecomp, hws, hlastQ⟩ := rstrip_decomp (l.dropWhile pyIsWord)
  have hl : l = (l.takeWhile pyIsWord ++ rstrip (l.dropWhile pyIsWord)) ++ ws := by
    conv_lhs => rw [← List.takeWhile_append_dropWhile pyIsWord l]
    conv_lhs => rw [hRdecomp]
    rw [List.append_assoc]
  have hQhead : ∀ c, (rstrip (l.dropWhile pyIsWord)).head? = some c → pyIsWord c = false := by
    intro c hc
    apply hRhead c
    rw [hRdecomp]
    cases hq : rstrip (l.dropWhile pyIsWord) with
    | nil => rw [hq] at hc; cases hc
    | cons q0 qt =>
      rw [hq] at hc
      simpa using hc
  have hrs : rstrip l = l.takeWhile pyIsWord ++ rstrip (l.dropWhile pyIsWord) := by
    conv_lhs => rw [hl]
    rw [rstrip_append_ws _ _ hws]
    apply rstrip_eq_self
    intro d hd
    cases hq : rstrip (l.dropWhile pyIsWord) with
    | nil =>
      rw [hq, List.append_nil] at hd
      exact word_not_space d (hW d (mem_of_getLast?_eq _ d hd))
    | cons q0 qt =>
      rw [hq, List.getLast?_append_of_ne_nil _ (by intro hx; cases hx)] at hd
      apply hlastQ
      rw [hq]
      exact hd
  obtain ⟨ht, hd⟩ := span_append pyIsWord (l.takeWhile pyIsWord)
    (rstrip (l.dropWhile pyIsWord)) hW hQhead
  exact ⟨hrs, by rw [hrs]; exact ht, by rw [hrs]; exact hd⟩
theorem mem_dropLast_of_ne (l : List Char) (a x : Char) (hl : l.getLast? = some a)
    (hx : x ∈ l) (hne : x ≠ a) : x ∈ l.dropLast := by
  have hnn : l ≠ [] := by
    intro h
    rw [h] at hl
    cases hl
  have hga : l.getLast hnn = a := by
    have h1 := List.getLast?_eq_getLast l hnn
    rw [h1] at hl
    injection hl
  have hsplit : l.dropLast ++ [l.getLast hnn] = l := List.dropLast_append_getLast hnn
  rw [← hsplit] at hx
  rcases List.mem_append.mp hx with h | h
  · exact h
  · exfalso
    have : x = l.getLast hnn := by
      cases h with
      | head => rfl
      | tail _ h2 => cases h2
    rw [hga] at this
    exact hne this

theorem list_colon_split (l : List Char) :
    (∃ r2, l = ':' :: r2) ∨ (∀ r2, l ≠ ':' :: r2) := by
  cases l with
  | nil =>
    right
    intro r2 h
    cases h
  | cons d t =>
    by_cases hd : d = ':'
    · subst hd
      left
      exact ⟨t, rfl⟩
    · right
      intro r2 h
      injection h with h1 _
      exact hd h1

theorem list_gtcolon_split (l : List Char) :
    (∃ r3, l = '>' :: ':' :: r3) ∨ (∀ r3, l ≠ '>' :: ':' :: r3) := by
  cases l with
  | nil =>
    right
    intro r3 h
    cases h
  | cons d t =>
    by_cases hd : d = '>'
    · subst hd
      cases t with
      | nil =>
        right
        intro r3 h
        injection h with _ h2
        cases h2
      | cons e t2 =>
        by_cases he : e = ':'
        · subst he
          left
          exact ⟨t2, rfl⟩
        · right
          intro r3 h
          injection h with _ h2
          injection h2 with h3 _
          exact he h3
    · right
      intro r3 h
      injection h with h1 _
      exact hd h1

/-- C10: on any single physical line (no interior newline) with no leading
whitespace, the source's classification loop over `rule_formats` assigns
exactly the kind that the spec's priority order over the four stripped-line
shapes assigns. -/
theorem classify_matches_spec (content : List Char)
    (hlead : content.dropWhile pyIsSpace = content) (hsl : singleLine content) :
    (classify content).map lineKind = specClassify content := by
  cases content with
  | nil => rfl
  | cons c rest =>
    have hcns : pyIsSpace c = false := by
      cases hs : pyIsSpace c
      · rfl
      · exfalso
        rw [List.dropWhile_cons, if_pos hs] at hlead
        have hlen := congrArg List.length hlead
        rw [List.length_cons] at hlen
        have hle := (List.dropWhile_sublist pyIsSpace (l := rest)).length_le
        omega
    have hstrip : pyStrip (c :: rest) = c :: rstrip rest := by
      unfold pyStrip
      rw [hlead]
      exact rstrip_cons_nonspace c rest hcns
    by_cases hc1 : c = '#'
    · subst hc1
      have hm := commentRE_hash rest
        (dropTrailingNl_no_nl ('#' :: rest) hsl ['#'] rest rfl)
      unfold classify
      rw [hm]
      simp only [specClassify]
      rw [hstrip]
      simp [lineKind]
    · have hcm := commentRE_not_hash c rest hc1
      have hno : ¬((c :: rstrip rest).head? = some '#') := by
        simp only [List.head?_cons]
        intro h
        injection h with h1
        exact hc1 h1
      by_cases hcw : pyIsWord c = true
      · -- word-initial line: widget, property or nothing
        have hc2 : c ≠ '<' := by
          intro heq
          subst heq
          exact absurd hcw (by decide)
        have hta : (c :: rest).takeWhile pyIsWord = c :: rest.takeWhile pyIsWord := by
          rw [List.takeWhile_cons, if_pos hcw]
        have hdr : (c :: rest).dropWhile pyIsWord = rest.dropWhile pyIsWord := by
          rw [List.dropWhile_cons, if_pos hcw]
        have hWne : ((c :: rest).takeWhile pyIsWord).isEmpty = false := by
          rw [hta]
          rfl
        have hrc : rstrip (c :: rest) = c :: rstrip rest := rstrip_cons_nonspace c rest hcns
        obtain ⟨_, htwS, hdwS⟩ := rstrip_word_split (c :: rest)
        have htwS' : (c :: rstrip rest).takeWhile pyIsWord = (c :: rest).takeWhile pyIsWord := by
          rw [← hrc]
          exact htwS
        have hdwS' : (c :: rstrip rest).dropWhile pyIsWord =
            rstrip (rest.dropWhile pyIsWord) := by
          rw [← hrc, hdwS, hdr]
        have hwre := widgetRE_parts (c :: rest) ((c :: rest).takeWhile pyIsWord)
          (rest.dropWhile pyIsWord) rfl hdr
        have hpre := propRE_parts (c :: rest) ((c :: rest).takeWhile pyIsWord)
          (rest.dropWhile pyIsWord) rfl hdr
        have hcv := classRE_not_lt c rest hc2
        have hcsh := specClassShape_not_lt c (rstrip rest) hc2
        have hwsh := specWidgetShape_parts (c :: rstrip rest)
          ((c :: rest).takeWhile pyIsWord) (rstrip (rest.dropWhile pyIsWord)) htwS' hdwS'
        have hpsh := specPropShape_parts (c :: rstrip rest)
          ((c :: rest).takeWhile pyIsWord) (rstrip (rest.dropWhile pyIsWord)) htwS' hdwS'
        rcases list_colon_split (rest.dropWhile pyIsWord) with ⟨r2, hR⟩ | hnm
        · have hsplitC : c :: rest = ((c :: rest).takeWhile pyIsWord ++ [':']) ++ r2 := by
            conv_lhs => rw [← List.takeWhile_append_dropWhile pyIsWord (c :: rest)]
            rw [hdr, hR, List.append_assoc]
            rfl
          cases hall : r2.all pyIsSpace with
          | true =>
            -- a widget line on both sides
            have hwv : widgetRE (c :: rest) = some ((c :: rest).takeWhile pyIsWord) := by
              rw [hwre, hR, if_neg (by rw [hWne]; exact Bool.false_ne_true)]
              simp [hall]
            have hrR : rstrip (rest.dropWhile pyIsWord) = [':'] := by
              rw [hR, show (':' :: r2 : List Char) = [':'] ++ r2 from rfl,
                rstrip_append_ws [':'] r2 (fun x hx => List.all_eq_true.mp hall x hx)]
              decide
            unfold classify
            rw [hcm, hwv]
            simp only [specClassify]
            rw [hstrip, if_neg hno, hcsh, hwsh, hrR, hWne]
            simp [lineKind]
          | false =>
            -- a property line on both sides
            have hwv : widgetRE (c :: rest) = none := by
              rw [hwre, hR, if_neg (by rw [hWne]; exact Bool.false_ne_true)]
              simp [hall]
            have hnl3 : ∀ y ∈ dropTrailingNl r2, y ≠ '\n' :=
              dropTrailingNl_no_nl (c :: rest) hsl _ r2 hsplitC
            obtain ⟨x, hx, hxs⟩ : ∃ x, x ∈ r2 ∧ pyIsSpace x = false := by
              obtain ⟨x, hx, hpx⟩ : ∃ x, x ∈ r2 ∧ ¬pyIsSpace x = true := by
                simpa using List.all_eq_false.mp hall
              refine ⟨x, hx, ?_⟩
              cases hb : pyIsSpace x
              · rfl
              · exact absurd hb hpx
            have hxn : x ≠ '\n' := by
              intro h
              subst h
              exact absurd hxs (by decide)
            have hx3 : x ∈ dropTrailingNl r2 := by
              unfold dropTrailingNl
              by_cases hlast : r2.getLast? = some '\n'
              · rw [if_pos hlast]
                exact mem_dropLast_of_ne r2 '\n' x hlast hx hxn
              · rw [if_neg hlast]
                exact hx
            have htne : ((dropTrailingNl r2).dropWhile pyIsSpace).isEmpty = false := by
              cases hq : (dropTrailingNl r2).dropWhile pyIsSpace with
              | nil =>
                have h1 := List.dropWhile_eq_nil_iff.mp hq x hx3
                rw [hxs] at h1
                exact absurd h1 Bool.false_ne_true
              | cons a t => rfl
            have hnin : '\n' ∉ (dropTrailingNl r2).dropWhile pyIsSpace := by
              intro hmem
              exact hnl3 '\n' ((List.dropWhile_sublist pyIsSpace).subset hmem) rfl
            have hcont : ((dropTrailingNl r2).dropWhile pyIsSpace).contains '\n' = false := by
              simpa using hnin
            have hpv : propRE (c :: rest) = some ((c :: rest).takeWhile pyIsWord,
                (dropTrailingNl r2).dropWhile pyIsSpace) := by
              rw [hpre, hR, if_neg (by rw [hWne]; exact Bool.false_ne_true)]
              simp [hcont, hnin, htne]
            have hr2ne : rstrip r2 ≠ [] := by
              intro hnil
              obtain ⟨ws, hdec, hws, _⟩ := rstrip_decomp r2
              rw [hnil, List.nil_append] at hdec
              have h1 := hws x (by rw [← hdec]; exact hx)
              rw [hxs] at h1
              exact Bool.false_ne_true h1
            have hrR : rstrip (rest.dropWhile pyIsWord) = ':' :: rstrip r2 := by
              rw [hR]
              exact rstrip_cons_nonspace ':' r2 (by decide)
            have hbw : ((':' :: rstrip r2) == [':']) = false := by
              rw [beq_eq_false_iff_ne]
              intro h
              injection h with _ h2
              exact hr2ne h2
            have hctt : colonTail (':' :: rstrip r2) = true := by
              cases hq : rstrip r2 with
              | nil => exact absurd hq hr2ne
              | cons a t => rfl
            unfold classify
            rw [hcm, hwv, hcv, hpv]
            simp only [specClassify]
            rw [hstrip, if_neg hno, hcsh, hwsh, hpsh, hrR, hbw, hctt, hWne]
            simp [lineKind]
        · -- no colon after the word: nothing matches on either side
          have hwv : widgetRE (c :: rest) = none := by
            rw [hwre, if_neg (by rw [hWne]; exact Bool.false_ne_true)]
            split
            next heq => exact absurd heq (hnm _)
            next => rfl
          have hpv : propRE (c :: rest) = none := by
            rw [hpre, if_neg (by rw [hWne]; exact Bool.false_ne_true)]
            split
            next heq => exact absurd heq (hnm _)
            next => rfl
          have hbw : (rstrip (rest.dropWhile pyIsWord) == [':']) = false := by
            rw [beq_eq_false_iff_ne]
            intro h
            obtain ⟨ws, hdec⟩ := rstrip_is_prefix (rest.dropWhile pyIsWord)
            rw [h] at hdec
            exact hnm ws hdec
          have hct : colonTail (rstrip (rest.dropWhile pyIsWord)) = false := by
            cases hq : rstrip (rest.dropWhile pyIsWord) with
            | nil => rfl
            | cons e t =>
              apply colonTail_not_colon
              intro he
              subst he
              obtain ⟨ws, hdec⟩ := rstrip_is_prefix (rest.dropWhile pyIsWord)
              rw [hq] at hdec
              exact hnm (t ++ ws) (by rw [hdec]; rfl)
          unfold classify
          rw [hcm, hwv, hcv, hpv]
          simp only [specClassify]
          rw [hstrip, if_neg hno, hcsh, hwsh, hpsh, hbw, hct]
          simp
      · by_cases hc2 : c = '<'
        · -- a class-rule candidate on both sides
          subst hc2
          have hwlt : pyIsWord '<' = false := by decide
          have htw0 : ('<' :: rest).takeWhile pyIsWord = [] := by
            rw [List.takeWhile_cons]
            simp [hwlt]
          have hdw0 : ('<' :: rest).dropWhile pyIsWord = '<' :: rest := by
            rw [List.dropWhile_cons]
            simp [hwlt]
          have hwv : widgetRE ('<' :: rest) = none := by
            rw [widgetRE_parts ('<' :: rest) [] ('<' :: rest) htw0 hdw0]
            rfl
          have hpv : propRE ('<' :: rest) = none := by
            rw [propRE_parts ('<' :: rest) [] ('<' :: rest) htw0 hdw0]
            rfl
          have htwS0 : ('<' :: rstrip rest).takeWhile pyIsWord = [] := by
            rw [List.takeWhile_cons]
            simp [hwlt]
          have hdwS0 : ('<' :: rstrip rest).dropWhile pyIsWord = '<' :: rstrip rest := by
            rw [List.dropWhile_cons]
            simp [hwlt]
          have hwsh : specWidgetShape ('<' :: rstrip rest) = false := by
            rw [specWidgetShape_parts ('<' :: rstrip rest) [] ('<' :: rstrip rest) htwS0 hdwS0]
            rfl
          have hpsh : specPropShape ('<' :: rstrip rest) = false := by
            rw [specPropShape_parts ('<' :: rstrip rest) [] ('<' :: rstrip rest) htwS0 hdwS0]
            rfl
          obtain ⟨_, htwr, hdwr⟩ := rstrip_word_split rest
          have hcsh := specClassShape_lt (rstrip rest) (rest.takeWhile pyIsWord)
            (rstrip (rest.dropWhile pyIsWord)) htwr hdwr
          have hcre := classRE_parts rest (rest.takeWhile pyIsWord)
            (rest.dropWhile pyIsWord) rfl rfl
          cases hWe : (rest.takeWhile pyIsWord).isEmpty with
          | true =>
            have hcv : classRE ('<' :: rest) = none := by
              rw [hcre, if_pos hWe]
            unfold classify
            rw [hcm, hwv, hcv, hpv]
            simp only [specClassify]
            rw [hstrip, if_neg hno, hcsh, hwsh, hpsh, hWe]
            simp
          | false =>
            rcases list_gtcolon_split (rest.dropWhile pyIsWord) with ⟨r3, hR⟩ | hnm
            · cases hall : r3.all pyIsSpace with
              | true =>
                have hcv : classRE ('<' :: rest) = some (rest.takeWhile pyIsWord) := by
                  rw [hcre, hR, if_neg (by rw [hWe]; exact Bool.false_ne_true)]
                  simp [hall]
                have hrR : rstrip (rest.dropWhile pyIsWord) = ['>', ':'] := by
                  rw [hR, show ('>' :: ':' :: r3 : List Char) = ['>', ':'] ++ r3 from rfl,
                    rstrip_append_ws ['>', ':'] r3 (fun x hx => List.all_eq_true.mp hall x hx)]
                  decide
                unfold classify
                rw [hcm, hwv, hcv, hpv]
                simp only [specClassify]
                rw [hstrip, if_neg hno, hcsh, hwsh, hpsh, hrR, hWe]
                simp [lineKind]
              | false =>
                have hr3ne : rstrip r3 ≠ [] := by
                  intro hnil
                  obtain ⟨ws, hdec, hws, _⟩ := rstrip_decomp r3
                  rw [hnil, List.nil_append] at hdec
                  have h1 : r3.all pyIsSpace = true := by
                    rw [List.all_eq_true]
                    intro x hx
                    exact hws x (by rw [← hdec]; exact hx)
                  rw [hall] at h1
                  exact Bool.false_ne_true h1
                have hcv : classRE ('<' :: rest) = none := by
                  rw [hcre, hR, if_neg (by rw [hWe]; exact Bool.false_ne_true)]
                  simp [hall]
                have hrR : rstrip (rest.dropWhile pyIsWord) = '>' :: ':' :: rstrip r3 := by
                  rw [hR, rstrip_cons_nonspace '>' _ (by decide),
                    rstrip_cons_nonspace ':' _ (by decide)]
                have hbc : (('>' :: ':' :: rstrip r3) == ['>', ':']) = false := by
                  rw [beq_eq_false_iff_ne]
                  intro h
                  injection h with _ h2
                  injection h2 with _ h3
                  exact hr3ne h3
                unfold classify
                rw [hcm, hwv, hcv, hpv]
                simp only [specClassify]
                rw [hstrip, if_neg hno, hcsh, hwsh, hpsh, hrR, hbc, hWe]
                simp
            · have hcv : classRE ('<' :: rest) = none := by
                rw [hcre, if_neg (by rw [hWe]; exact Bool.false_ne_true)]
                split
                next heq => exact absurd heq (hnm _)
                next => rfl
              have hbc : (rstrip (rest.dropWhile pyIsWord) == ['>', ':']) = false := by
                rw [beq_eq_false_iff_ne]
                intro h
                obtain ⟨ws, hdec⟩ := rstrip_is_prefix (rest.dropWhile pyIsWord)
                rw [h] at hdec
                exact hnm ws hdec
              unfold classify
              rw [hcm, hwv, hcv, hpv]
              simp only [specClassify]
              rw [hstrip, if_neg hno, hcsh, hwsh, hpsh, hbc, hWe]
              simp
        · -- head is not word, hash or bracket: nothing matches on either side
          have hcwf : pyIsWord c = false := by
            cases hb : pyIsWord c
            · rfl
            · exact absurd hb hcw
          have htw0 : (c :: rest).takeWhile pyIsWord = [] := by
            rw [List.takeWhile_cons]
            simp [hcwf]
          have hdw0 : (c :: rest).dropWhile pyIsWord = c :: rest := by
            rw [List.dropWhile_cons]
            simp [hcwf]
          have hwv : widgetRE (c :: rest) = none := by
            rw [widgetRE_parts (c :: rest) [] (c :: rest) htw0 hdw0]
            rfl
          have hpv : propRE (c :: rest) = none := by
            rw [propRE_parts (c :: rest) [] (c :: rest) htw0 hdw0]
            rfl
          have hcv := classRE_not_lt c rest hc2
          have htwS0 : (c :: rstrip rest).takeWhile pyIsWord = [] := by
            rw [List.takeWhile_cons]
            simp [hcwf]
          have hdwS0 : (c :: rstrip rest).dropWhile pyIsWord = c :: rstrip rest := by
            rw [List.dropWhile_cons]
            simp [hcwf]
          have hwsh : specWidgetShape (c :: rstrip rest) = false := by
            rw [specWidgetShape_parts (c :: rstrip rest) [] (c :: rstrip rest) htwS0 hdwS0]
            rfl
          have hpsh : specPropShape (c :: rstrip rest) = false := by
            rw [specPropShape_parts (c :: rstrip rest) [] (c :: rstrip rest) htwS0 hdwS0]
            rfl
          have hcsh := specClassShape_not_lt c (rstrip rest) hc2
          unfold classify
          rw [hcm, hwv, hcv, hpv]
          simp only [specClassify]
          rw [hstrip, if_neg hno, hcsh, hwsh, hpsh]
          simp

/-- Witness for C10: the concrete property line `foo: bar` satisfies the
hypotheses, and both classifiers agree on it. -/
theorem classify_matches_spec_witness :
    (['f', 'o', 'o', ':', ' ', 'b', 'a', 'r'].dropWhile pyIsSpace =
        ['f', 'o', 'o', ':', ' ', 'b', 'a', 'r']) ∧
    (classify ['f', 'o', 'o', ':', ' ', 'b', 'a', 'r']).map lineKind =
      specClassify ['f', 'o', 'o', ':', ' ', 'b', 'a', 'r'] :=
  ⟨by decide, classify_matches_spec ['f', 'o', 'o', ':', ' ', 'b', 'a', 'r'] (by decide)
    ⟨['f', 'o', 'o', ':', ' ', 'b', 'a', 'r'], by decide, Or.inl rfl⟩⟩

/-! ## Round-trip scaffolding: traversal and index lemmas -/

theorem dfsT_eq (i ind : Nat) (d : LineData) (cs : List ITree) :
    dfsT (.node i ind d cs) = .node i ind d cs :: dfsF cs := by
  rw [dfsT.eq_def]
  simp only [List.attach_map_val]
  rfl

theorem dfsF_cons (t : ITree) (f : List ITree) : dfsF (t :: f) = dfsT t ++ dfsF f := by
  unfold dfsF
  rw [List.map_cons, List.flatten_cons]

theorem dfsF_append (a b : List ITree) : dfsF (a ++ b) = dfsF a ++ dfsF b := by
  unfold dfsF
  rw [List.map_append, List.flatten_append]

theorem dfsF_single (t : ITree) : dfsF [t] = dfsT t := by
  unfold dfsF
  simp

theorem toElem_widget (i ind : Nat) (n : List Char) (cs : List ITree) :
    toElem (.node i ind (.widget n) cs) = .widget ind n (cs.map toElem) := by
  rw [toElem.eq_def]
  simp only [List.attach_map_val]

theorem toElem_comment (i ind : Nat) (t : List Char) (cs : List ITree) :
    toElem (.node i ind (.comment t) cs) = .comment ind t := by
  rw [toElem.eq_def]

theorem toElem_classRule (i ind : Nat) (n : List Char) (cs : List ITree) :
    toElem (.node i ind (.classRule n) cs) = .classRule ind n := by
  rw [toElem.eq_def]

theorem toElem_property (i ind : Nat) (n v : List Char) (cs : List ITree) :
    toElem (.node i ind (.property n v) cs) = .property ind n v := by
  rw [toElem.eq_def]

theorem serializeTree_widget (i : Nat) (n : List Char) (cs : List ElemTree) :
    serializeTree (.widget i n cs) =
      emitLine i (.widget n) :: (cs.map serializeTree).flatten := by
  rw [serializeTree.eq_def]
  simp only [List.attach_map_val]

theorem mem_range'_bounds (j s n : Nat) (h : j ∈ List.range' s n) : s ≤ j ∧ j < s + n := by
  rw [List.mem_range'] at h
  obtain ⟨i, hi, rfl⟩ := h
  omega

theorem range'_split3 (xs ys : List Nat) (a m : Nat)
    (h : xs ++ a :: ys = List.range' 1 m) :
    a = xs.length + 1 ∧ (∀ j ∈ xs, j < a) ∧ (∀ j ∈ ys, a < j) ∧
      (∀ j ∈ xs, j < m + 1) ∧ (∀ j ∈ ys, j < m + 1) ∧ a < m + 1 := by
  have hlen : xs.length + (ys.length + 1) = m := by
    have h2 := congrArg List.length h
    simp at h2
    omega
  have hsplit : List.range' 1 xs.length ++ List.range' (1 + xs.length) (ys.length + 1) =
      List.range' 1 m := by
    have h3 := List.range'_append 1 xs.length (ys.length + 1) 1
    rw [Nat.one_mul] at h3
    rw [h3]
    congr 1
    omega
  rw [← hsplit] at h
  obtain ⟨hxs, hys⟩ := List.append_inj h (by simp)
  have hcons : List.range' (1 + xs.length) (ys.length + 1) =
      (1 + xs.length) :: List.range' (1 + xs.length + 1) ys.length := rfl
  rw [hcons] at hys
  have ha : a = 1 + xs.length := by
    injection hys
  have hys2 : ys = List.range' (1 + xs.length + 1) ys.length := by
    injection hys with _ h4
  refine ⟨by omega, ?_, ?_, ?_, ?_, by omega⟩
  · intro j hj
    rw [hxs] at hj
    have := mem_range'_bounds j 1 xs.length hj
    omega
  · intro j hj
    rw [hys2] at hj
    have := mem_range'_bounds j (1 + xs.length + 1) ys.length hj
    omega
  · intro j hj
    rw [hxs] at hj
    have := mem_range'_bounds j 1 xs.length hj
    omega
  · intro j hj
    rw [hys2] at hj
    have := mem_range'_bounds j (1 + xs.length + 1) ys.length hj
    omega

/-! ## Per-line serialization lemmas -/

theorem expandtabsAux_spaces (n : Nat) : ∀ col : Nat,
    expandtabsAux (List.replicate n ' ') col = List.replicate n ' ' := by
  induction n with
  | zero => intro col; rfl
  | succ k ih =>
    intro col
    rw [List.replicate_succ]
    simp only [expandtabsAux]
    rw [if_neg (by decide), if_neg (by decide)]
    rw [ih]

theorem indent_count_spaces (n : Nat) (line : List Char) :
    indent_count (List.replicate n ' ') line = .ok n := by
  unfold indent_count
  have he : expandtabs (List.replicate n ' ') = List.replicate n ' ' :=
    expandtabsAux_spaces n 0
  rw [he]
  have hf : (List.replicate n ' ').find? (fun c => c ≠ ' ') = none := by
    rw [List.find?_eq_none]
    intro x hx
    rw [List.eq_of_mem_replicate hx]
    simp
  rw [hf, List.length_replicate]

theorem renderData_head (d : LineData) (h : dataWF d) :
    ∃ c rest2, renderData d = c :: rest2 ∧ pyIsSpace c = false := by
  cases d with
  | comment t => exact ⟨'#', t, rfl, by decide⟩
  | widget n =>
    obtain ⟨hne, hall⟩ := h
    cases hn : n with
    | nil => exact absurd hn hne
    | cons n0 nrest =>
      refine ⟨n0, nrest ++ [':'], by subst hn; rfl, ?_⟩
      apply word_not_space
      have := List.all_eq_true.mp hall n0 (by rw [hn]; exact List.mem_cons_self n0 nrest)
      exact this
  | classRule n => exact ⟨'<', n ++ ['>', ':'], rfl, by decide⟩
  | property n v =>
    obtain ⟨hne, hall, _⟩ := h
    cases hn : n with
    | nil => exact absurd hn hne
    | cons n0 nrest =>
      refine ⟨n0, nrest ++ (':' :: ' ' :: v), by subst hn; rfl, ?_⟩
      apply word_not_space
      exact List.all_eq_true.mp hall n0 (by rw [hn]; exact List.mem_cons_self n0 nrest)

theorem classify_render (d : LineData) (h : dataWF d) :
    classify (renderData d ++ ['\n']) = some d := by
  cases d with
  | comment t =>
    have hdt : dropTrailingNl (t ++ ['\n']) = t := by
      unfold dropTrailingNl
      rw [if_pos (List.getLast?_concat t)]
      exact List.dropLast_concat
    have hnl : ∀ x ∈ dropTrailingNl (t ++ ['\n']), x ≠ '\n' := by
      rw [hdt]
      intro x hx heq
      subst heq
      have h9 : t.contains '\n' = false := h
      simp at h9
      exact h9 hx
    have hcm : commentRE (('#' :: t) ++ ['\n']) = some t := by
      rw [List.cons_append, commentRE_hash (t ++ ['\n']) hnl, hdt]
    unfold classify
    rw [show renderData (.comment t) = '#' :: t from rfl, hcm]
  | widget n =>
    obtain ⟨hne, hall⟩ := h
    have hshape : renderData (.widget n) ++ ['\n'] = n ++ [':', '\n'] := by
      rw [renderData, List.append_assoc]
      rfl
    obtain ⟨htk, hdp⟩ := span_append pyIsWord n [':', '\n']
      (fun x hx => List.all_eq_true.mp hall x hx)
      (fun c hc => by injection hc with hc2; rw [← hc2]; decide)
    obtain ⟨n0, nrest, hn⟩ : ∃ n0 nrest, n = n0 :: nrest := by
      cases n with
      | nil => exact absurd rfl hne
      | cons a b => exact ⟨a, b, rfl⟩
    have hn0w : pyIsWord n0 = true :=
      List.all_eq_true.mp hall n0 (by rw [hn]; exact List.mem_cons_self n0 nrest)
    have hcm : commentRE (n ++ [':', '\n']) = none := by
      rw [hn, List.cons_append]
      apply commentRE_not_hash
      intro heq
      rw [heq] at hn0w
      exact absurd hn0w (by decide)
    have hwv : widgetRE (n ++ [':', '\n']) = some n := by
      rw [widgetRE_parts (n ++ [':', '\n']) n [':', '\n'] htk hdp]
      rw [if_neg (by rw [List.isEmpty_iff]; exact hne)]
      simp
      decide
    unfold classify
    rw [hshape, hcm, hwv]
  | classRule n =>
    obtain ⟨hne, hall⟩ := h
    have hshape : renderData (.classRule n) ++ ['\n'] = '<' :: (n ++ ['>', ':', '\n']) := by
      rw [renderData, List.cons_append, List.append_assoc]
      rfl
    obtain ⟨htk, hdp⟩ := span_append pyIsWord n ['>', ':', '\n']
      (fun x hx => List.all_eq_true.mp hall x hx)
      (fun c hc => by injection hc with hc2; rw [← hc2]; decide)
    have hcm : commentRE ('<' :: (n ++ ['>', ':', '\n'])) = none :=
      commentRE_not_hash '<' _ (by decide)
    have htk0 : ('<' :: (n ++ ['>', ':', '\n'])).takeWhile pyIsWord = [] := by
      rw [List.takeWhile_cons]
      simp [show pyIsWord '<' = false from by decide]
    have hdp0 : ('<' :: (n ++ ['>', ':', '\n'])).dropWhile pyIsWord =
        '<' :: (n ++ ['>', ':', '\n']) := by
      rw [List.dropWhile_cons]
      simp [show pyIsWord '<' = false from by decide]
    have hwv : widgetRE ('<' :: (n ++ ['>', ':', '\n'])) = none := by
      rw [widgetRE_parts _ [] _ htk0 hdp0]
      rfl
    have hcv : classRE ('<' :: (n ++ ['>', ':', '\n'])) = some n := by
      rw [classRE_parts (n ++ ['>', ':', '\n']) n ['>', ':', '\n'] htk hdp]
      rw [if_neg (by rw [List.isEmpty_iff]; exact hne)]
      simp
      decide
    unfold classify
    rw [hshape, hcm, hwv, hcv]
  | property n v =>
    obtain ⟨hne, hall, hvne, hvnl, hvhead⟩ := h
    have hshape : renderData (.property n v) ++ ['\n'] =
        n ++ (':' :: ' ' :: (v ++ ['\n'])) := by
      rw [renderData, List.append_assoc]
      rfl
    obtain ⟨htk, hdp⟩ := span_append pyIsWord n (':' :: ' ' :: (v ++ ['\n']))
      (fun x hx => List.all_eq_true.mp hall x hx)
      (fun c hc => by injection hc with hc2; rw [← hc2]; decide)
    obtain ⟨n0, nrest, hn⟩ : ∃ n0 nrest, n = n0 :: nrest := by
      cases n with
      | nil => exact absurd rfl hne
      | cons a b => exact ⟨a, b, rfl⟩
    have hn0w : pyIsWord n0 = true :=
      List.all_eq_true.mp hall n0 (by rw [hn]; exact List.mem_cons_self n0 nrest)
    obtain ⟨v0, vrest, hv⟩ : ∃ v0 vrest, v = v0 :: vrest := by
      cases v with
      | nil => exact absurd rfl hvne
      | cons a b => exact ⟨a, b, rfl⟩
    have hv0 : pyIsSpace v0 = false := hvhead v0 (by rw [hv]; rfl)
    have hcm : commentRE (n ++ (':' :: ' ' :: (v ++ ['\n']))) = none := by
      rw [hn, List.cons_append]
      apply commentRE_not_hash
      intro heq
      rw [heq] at hn0w
      exact absurd hn0w (by decide)
    have hr2all : ((' ' :: (v ++ ['\n'])).all pyIsSpace) = false := by
      rw [List.all_eq_false]
      refine ⟨v0, ?_, ?_⟩
      · rw [hv]
        exact List.mem_cons_of_mem ' ' (List.mem_append_left _ (List.mem_cons_self v0 vrest))
      · rw [hv0]
        simp
    have hwv : widgetRE (n ++ (':' :: ' ' :: (v ++ ['\n']))) = none := by
      rw [widgetRE_parts _ n (':' :: ' ' :: (v ++ ['\n'])) htk hdp]
      rw [if_neg (by rw [List.isEmpty_iff]; exact hne)]
      simp [hr2all]
    have hcv : classRE (n ++ (':' :: ' ' :: (v ++ ['\n']))) = none := by
      rw [hn, List.cons_append]
      apply classRE_not_lt
      intro heq
      rw [heq] at hn0w
      exact absurd hn0w (by decide)
    have hdt : dropTrailingNl (' ' :: (v ++ ['\n'])) = ' ' :: v := by
      unfold dropTrailingNl
      rw [show (' ' :: (v ++ ['\n'])) = (' ' :: v) ++ ['\n'] from by rw [List.cons_append]]
      rw [if_pos (List.getLast?_concat _)]
      exact List.dropLast_concat
    have hdw : (' ' :: v).dropWhile pyIsSpace = v := by
      rw [List.dropWhile_cons, if_pos (by decide)]
      rw [hv, List.dropWhile_cons]
      simp [hv0]
    have hpv : propRE (n ++ (':' :: ' ' :: (v ++ ['\n']))) = some (n, v) := by
      rw [propRE_parts _ n (':' :: ' ' :: (v ++ ['\n'])) htk hdp]
      rw [if_neg (by rw [List.isEmpty_iff]; exact hne)]
      simp only [hdt, hdw]
      have hnin : ¬ '\n' = v0 ∧ '\n' ∉ vrest := by
        have h9 : '\n' ∉ v := by
          simp at hvnl
          exact hvnl
        rw [hv] at h9
        simpa using h9
      rw [hv]
      simp [hnin.1, hnin.2]
    unfold classify
    rw [hshape, hcm, hwv, hcv, hpv]

theorem lineAbs_emit (ind : Nat) (d : LineData) (h : dataWF d) :
    lineAbs (emitLine ind d) = some (some (ind, d)) := by
  obtain ⟨c0, rest0, hrd, hc0⟩ := renderData_head d h
  have hsp : ∀ x ∈ List.replicate ind ' ', pyIsSpace x = true := by
    intro x hx
    rw [List.eq_of_mem_replicate hx]
    decide
  have hbody : (renderData d ++ ['\n']).head? = some c0 := by
    rw [hrd, List.cons_append]
    rfl
  obtain ⟨htk, hdp⟩ := span_append pyIsSpace (List.replicate ind ' ')
    (renderData d ++ ['\n']) hsp
    (fun c hc => by rw [hbody] at hc; injection hc with hc2; rw [← hc2]; exact hc0)
  have hemit : emitLine ind d = List.replicate ind ' ' ++ (renderData d ++ ['\n']) := by
    unfold emitLine
    rw [List.append_assoc]
  have hie : (renderData d ++ ['\n']).isEmpty = false := by
    rw [hrd, List.cons_append]
    rfl
  unfold lineAbs
  rw [hemit, hdp, htk]
  simp only []
  rw [hie]
  simp only [Bool.false_eq_true, if_false]
  rw [indent_count_spaces, classify_render d h]

/-! ## `classify` output is well-formed -/

theorem commentRE_some (s t : List Char) (h : commentRE s = some t) :
    t.contains '\n' = false := by
  rw [commentRE.eq_def] at h
  split at h
  next heq =>
    simp only [] at h
    split at h
    next hc => cases h
    next hc =>
      injection h with h2
      rw [← h2]
      cases hb : (dropTrailingNl _).contains '\n'
      · rfl
      · exact absurd hb hc
  next => cases h

theorem takeWhile_word_wf (s : List Char) (hne : (s.takeWhile pyIsWord).isEmpty = false) :
    s.takeWhile pyIsWord ≠ [] ∧ (s.takeWhile pyIsWord).all pyIsWord = true := by
  constructor
  · intro h
    rw [h] at hne
    cases hne
  · rw [List.all_eq_true]
    exact fun x hx => List.mem_takeWhile_imp hx

theorem widgetRE_some (s w : List Char) (h : widgetRE s = some w) :
    w = s.takeWhile pyIsWord ∧ (s.takeWhile pyIsWord).isEmpty = false := by
  rw [widgetRE_parts s _ _ rfl rfl] at h
  split at h
  next => cases h
  next hie =>
    split at h
    next heq =>
      split at h
      next =>
        injection h with h2
        exact ⟨h2.symm, by cases hb : (s.takeWhile pyIsWord).isEmpty
                           · rfl
                           · exact absurd hb hie⟩
      next => cases h
    next => cases h

theorem classRE_some (s w : List Char) (h : classRE s = some w) :
    ∃ rest, s = '<' :: rest ∧ w = rest.takeWhile pyIsWord ∧
      (rest.takeWhile pyIsWord).isEmpty = false := by
  cases s with
  | nil =>
    rw [show classRE [] = none from rfl] at h
    cases h
  | cons c rest =>
    by_cases hc : c = '<'
    · subst hc
      rw [classRE_parts rest _ _ rfl rfl] at h
      by_cases hie : (rest.takeWhile pyIsWord).isEmpty = true
      · rw [if_pos hie] at h
        cases h
      · rw [if_neg hie] at h
        have hie2 : (rest.takeWhile pyIsWord).isEmpty = false := by
          cases hb : (rest.takeWhile pyIsWord).isEmpty
          · rfl
          · exact absurd hb hie
        refine ⟨rest, rfl, ?_, hie2⟩
        split at h
        next heq =>
          split at h
          next =>
            injection h with h2
            exact h2.symm
          next => cases h
        next => cases h
    · rw [classRE_not_lt c rest hc] at h
      cases h

theorem propRE_some (s w v : List Char) (h : propRE s = some (w, v)) :
    w = s.takeWhile pyIsWord ∧ (s.takeWhile pyIsWord).isEmpty = false ∧
    ∃ r2, s.dropWhile pyIsWord = ':' :: r2 ∧
      ((v = (dropTrailingNl r2).dropWhile pyIsSpace ∧ v ≠ [] ∧
          v.contains '\n' = false) ∨
        r2.all pyIsSpace = true) := by
  rw [propRE_parts s _ _ rfl rfl] at h
  by_cases hie : (s.takeWhile pyIsWord).isEmpty = true
  · rw [if_pos hie] at h
    cases h
  · rw [if_neg hie] at h
    have hie2 : (s.takeWhile pyIsWord).isEmpty = false := by
      cases hb : (s.takeWhile pyIsWord).isEmpty
      · rfl
      · exact absurd hb hie
    split at h
    next r2 heq =>
      simp only [] at h
      split at h
      next => cases h
      next hnl =>
        split at h
        next hne =>
          injection h with h2
          injection h2 with h3 h4
          refine ⟨h3.symm, hie2, r2, heq, Or.inl ⟨h4.symm, ?_, ?_⟩⟩
          · intro hnil
            rw [hnil] at h4
            rw [h4] at hne
            exact absurd hne (by decide)
          · rw [← h4]
            cases hb : (List.dropWhile pyIsSpace (dropTrailingNl r2)).contains '\n'
            · rfl
            · exact absurd hb hnl
        next hne =>
          split at h
          next =>
            injection h with h2
            injection h2 with h3 h4
            refine ⟨h3.symm, hie2, r2, heq, Or.inr ?_⟩
            have htl : (dropTrailingNl r2).dropWhile pyIsSpace = [] := by
              cases hb : (dropTrailingNl r2).dropWhile pyIsSpace with
              | nil => rfl
              | cons a t =>
                exfalso
                apply hne
                rw [hb]
                rfl
            have hr3 : ∀ x ∈ dropTrailingNl r2, pyIsSpace x = true :=
              fun x hx => List.dropWhile_eq_nil_iff.mp htl x hx
            rw [List.all_eq_true]
            intro x hx
            unfold dropTrailingNl at hr3
            by_cases hlast : r2.getLast? = some '\n'
            · rw [if_pos hlast] at hr3
              have hnn : r2 ≠ [] := by
                intro hc
                rw [hc] at hlast
                cases hlast
              have hga : r2.getLast hnn = '\n' := by
                have h5 := List.getLast?_eq_getLast r2 hnn
                rw [h5] at hlast
                injection hlast
              have hsplit2 : r2.dropLast ++ [r2.getLast hnn] = r2 :=
                List.dropLast_append_getLast hnn
              rw [← hsplit2] at hx
              rcases List.mem_append.mp hx with h6 | h6
              · exact hr3 x h6
              · have h7 : x = r2.getLast hnn := by
                  cases h6 with
                  | head => rfl
                  | tail _ h8 => cases h8
                rw [h7, hga]
                decide
            · rw [if_neg hlast] at hr3
              exact hr3 x hx
          next => cases h
    next => cases h

theorem classify_dataWF (content : List Char) (d : LineData)
    (h : classify content = some d) : dataWF d := by
  unfold classify at h
  cases hcm : commentRE content with
  | some t =>
    rw [hcm] at h
    injection h with h2
    rw [← h2]
    exact commentRE_some content t hcm
  | none =>
    rw [hcm] at h
    cases hwv : widgetRE content with
    | some n =>
      rw [hwv] at h
      injection h with h2
      rw [← h2]
      obtain ⟨hn, hie⟩ := widgetRE_some content n hwv
      rw [hn]
      exact takeWhile_word_wf content hie
    | none =>
      rw [hwv] at h
      cases hcv : classRE content with
      | some n =>
        rw [hcv] at h
        injection h with h2
        rw [← h2]
        obtain ⟨rest, hs, hn, hie⟩ := classRE_some content n hcv
        rw [hn]
        exact takeWhile_word_wf rest hie
      | none =>
        rw [hcv] at h
        cases hpv : propRE content with
        | some nv =>
          rw [hpv] at h
          injection h with h2
          obtain ⟨n, v⟩ := nv
          rw [← h2]
          obtain ⟨hn, hie, r2, hr2, hv⟩ := propRE_some content n v hpv
          rcases hv with ⟨hveq, hvne, hvnl⟩ | hallsp
          · obtain ⟨hwne, hwall⟩ := takeWhile_word_wf content hie
            rw [hn]
            refine ⟨hwne, hwall, hvne, hvnl, ?_⟩
            intro c hc
            rw [hveq] at hc
            exact head?_dropWhile_false pyIsSpace _ c hc
          · exfalso
            rw [widgetRE_parts content _ _ rfl rfl, hr2,
              if_neg (by rw [hie]; exact Bool.false_ne_true)] at hwv
            simp [hallsp] at hwv
        | none =>
          rw [hpv] at h
          cases h

/-! ## Abstracted-sequence lemmas -/

theorem Fits_node (nodes : List PNode) (par i ind : Nat) (d : LineData) (cs : List ITree) :
    Fits nodes par (.node i ind d cs) ↔
      ∃ nd, nodes[i]? = some nd ∧ nd.kind = .elem d ∧ nd.indentLevel = (ind : Int) ∧
        nd.parent = some par ∧ nd.elements = cs.map ITree.idx ∧ par < i ∧
        dataWF d ∧ (hasElements (.elem d) = false → cs = []) ∧
        ∀ c ∈ cs, Fits nodes i c := by
  rw [Fits.eq_def]

theorem absSeq_append (a b : List (List Char)) (sb : List (Nat × LineData))
    (hb : absSeq b = some sb) : ∀ sa, absSeq a = some sa →
    absSeq (a ++ b) = some (sa ++ sb) := by
  induction a with
  | nil =>
    intro sa ha
    rw [show absSeq [] = some [] from rfl] at ha
    injection ha with h2
    rw [← h2, List.nil_append, List.nil_append]
    exact hb
  | cons l ls ih =>
    intro sa ha
    rw [List.cons_append]
    unfold absSeq at ha ⊢
    cases hla : lineAbs l with
    | none =>
      rw [hla] at ha
      cases ha
    | some o =>
      rw [hla] at ha
      cases o with
      | none => exact ih sa ha
      | some p =>
        cases hs : absSeq ls with
        | none =>
          rw [hs] at ha
          cases ha
        | some s2 =>
          rw [hs] at ha
          injection ha with h2
          rw [ih s2 hs, ← h2]
          rfl

theorem absSeq_emit (ind : Nat) (d : LineData) (h : dataWF d) :
    absSeq [emitLine ind d] = some [(ind, d)] := by
  unfold absSeq
  rw [lineAbs_emit ind d h]
  rfl

theorem serializeTree_comment (i : Nat) (t : List Char) :
    serializeTree (.comment i t) = [emitLine i (.comment t)] := by
  rw [serializeTree.eq_def]

theorem serializeTree_classRule (i : Nat) (n : List Char) :
    serializeTree (.classRule i n) = [emitLine i (.classRule n)] := by
  rw [serializeTree.eq_def]

theorem serializeTree_property (i : Nat) (n v : List Char) :
    serializeTree (.property i n v) = [emitLine i (.property n v)] := by
  rw [serializeTree.eq_def]

theorem absSeq_serialize_strong : ∀ (k : Nat),
    (∀ (t : ITree) (nodes : List PNode) (par : Nat), sizeOf t ≤ k → Fits nodes par t →
      absSeq (serializeTree (toElem t)) = some ((dfsT t).map ITree.abs)) ∧
    (∀ (cs : List ITree) (nodes : List PNode) (par : Nat), sizeOf cs ≤ k →
      (∀ c ∈ cs, Fits nodes par c) →
      absSeq (((cs.map toElem).map serializeTree).flatten) =
        some ((dfsF cs).map ITree.abs)) := by
  intro k
  induction k with
  | zero =>
    constructor
    · intro t nodes par hsz hfit
      exfalso
      cases t with
      | node i ind d cs =>
        simp at hsz
    · intro cs nodes par hsz hcs
      cases cs with
      | nil => rfl
      | cons c cs2 =>
        exfalso
        simp at hsz
  | succ k ih =>
    obtain ⟨ihT, ihF⟩ := ih
    constructor
    · intro t nodes par hsz hfit
      cases t with
      | node i ind d cs =>
        rw [Fits_node] at hfit
        obtain ⟨nd, hnd, hkind, hind, hpar, helems, hlt, hwf, hleaf, hcsf⟩ := hfit
        cases d with
        | widget nx =>
          rw [toElem_widget, serializeTree_widget, dfsT_eq]
          have hsz2 : sizeOf cs ≤ k := by
            simp at hsz
            omega
          have hch := ihF cs nodes i hsz2 hcsf
          have hemit := absSeq_emit ind (.widget nx) hwf
          have happ := absSeq_append [emitLine ind (.widget nx)]
            (((cs.map toElem).map serializeTree).flatten) _ hch _ hemit
          rw [show emitLine ind (.widget nx) ::
              ((cs.map toElem).map serializeTree).flatten =
              [emitLine ind (.widget nx)] ++
              ((cs.map toElem).map serializeTree).flatten from rfl]
          rw [happ]
          rfl
        | comment tx =>
          have hcs0 : cs = [] := hleaf rfl
          subst hcs0
          rw [toElem_comment, dfsT_eq]
          rw [serializeTree_comment]
          rw [absSeq_emit ind (.comment tx) hwf]
          rfl
        | classRule nx =>
          have hcs0 : cs = [] := hleaf rfl
          subst hcs0
          rw [toElem_classRule, dfsT_eq]
          rw [serializeTree_classRule]
          rw [absSeq_emit ind (.classRule nx) hwf]
          rfl
        | property nx vx =>
          have hcs0 : cs = [] := hleaf rfl
          subst hcs0
          rw [toElem_property, dfsT_eq]
          rw [serializeTree_property]
          rw [absSeq_emit ind (.property nx vx) hwf]
          rfl
    · intro cs nodes par hsz hcs
      cases cs with
      | nil => rfl
      | cons c cs2 =>
        rw [List.map_cons, List.map_cons, List.flatten_cons, dfsF_cons, List.map_append]
        have hszc : sizeOf c ≤ k := by
          simp at hsz
          omega
        have hszcs : sizeOf cs2 ≤ k := by
          simp at hsz
          omega
        have h1 := ihT c nodes par hszc (hcs c (List.mem_cons_self c cs2))
        have h2 := ihF cs2 nodes par hszcs (fun x hx => hcs x (List.mem_cons_of_mem c hx))
        exact absSeq_append _ _ _ h2 _ h1

theorem absSeq_serializeTree (t : ITree) (nodes : List PNode) (par : Nat)
    (hfit : Fits nodes par t) :
    absSeq (serializeTree (toElem t)) = some ((dfsT t).map ITree.abs) :=
  (absSeq_serialize_strong (sizeOf t)).1 t nodes par (Nat.le_refl _) hfit

theorem absSeq_serializeForest (cs : List ITree) (nodes : List PNode) (par : Nat)
    (hcs : ∀ c ∈ cs, Fits nodes par c) :
    absSeq (((cs.map toElem).map serializeTree).flatten) =
      some ((dfsF cs).map ITree.abs) :=
  (absSeq_serialize_strong (sizeOf cs)).2 cs nodes par (Nat.le_refl _) hcs

/-! ## The line loop factors through the abstracted sequence -/

theorem runLines_absSeq : ∀ (ls : List (List Char)) (s : List (Nat × LineData))
    (st : PState) (n : Nat), absSeq ls = some s → runLines st n ls = runAbs st s := by
  intro ls
  induction ls with
  | nil =>
    intro s st n h
    injection h with h2
    rw [← h2]
    rfl
  | cons l ls ih =>
    intro s st n h
    unfold absSeq at h
    unfold runLines
    cases hla : lineAbs l with
    | none =>
      rw [hla] at h
      cases h
    | some o =>
      rw [hla] at h
      cases o with
      | none =>
        have hpl : processLine st n l = .ok st := by
          unfold lineAbs at hla
          unfold processLine
          by_cases hie : (l.dropWhile pyIsSpace).isEmpty = true
          · rw [if_pos hie]
          · rw [if_neg hie] at hla
            rw [if_neg hie]
            cases hic : indent_count (l.takeWhile pyIsSpace) l with
            | error e =>
              rw [hic] at hla
              cases hla
            | ok ic =>
              rw [hic] at hla
              cases hcl : classify (l.dropWhile pyIsSpace) with
              | none =>
                rw [hcl] at hla
                cases hla
              | some ld =>
                rw [hcl] at hla
                injection hla with h3
                cases h3
        rw [hpl]
        exact ih s st (n + 1) h
      | some p =>
        cases hs : absSeq ls with
        | none =>
          rw [hs] at h
          cases h
        | some s2 =>
          rw [hs] at h
          injection h with h2
          obtain ⟨ic, ld⟩ := p
          have hpl : processLine st n l = insertElem st ic ld := by
            unfold lineAbs at hla
            unfold processLine
            by_cases hie : (l.dropWhile pyIsSpace).isEmpty = true
            · rw [if_pos hie] at hla
              injection hla with h3
              cases h3
            · rw [if_neg hie] at hla
              rw [if_neg hie]
              cases hic : indent_count (l.takeWhile pyIsSpace) l with
              | error e =>
                rw [hic] at hla
                cases hla
              | ok ic2 =>
                rw [hic] at hla
                cases hcl : classify (l.dropWhile pyIsSpace) with
                | none =>
                  rw [hcl] at hla
                  cases hla
                | some ld2 =>
                  rw [hcl] at hla
                  injection hla with h3
                  injection h3 with h4
                  injection h4 with h5 h6
                  rw [h5, h6]
          rw [hpl, ← h2]
          unfold runAbs
          cases hins : insertElem st ic ld with
          | error e => rfl
          | ok st1 => exact ih s2 st1 (n + 1) hs

theorem runLines_ok_absSeq : ∀ (ls : List (List Char)) (st : PState) (n : Nat) (st2 : PState),
    runLines st n ls = .ok st2 → ∃ s, absSeq ls = some s := by
  intro ls
  induction ls with
  | nil =>
    intro st n st2 h
    exact ⟨[], rfl⟩
  | cons l ls ih =>
    intro st n st2 h
    unfold runLines at h
    cases hpl : processLine st n l with
    | error e =>
      rw [hpl] at h
      cases h
    | ok st1 =>
      rw [hpl] at h
      obtain ⟨s2, hs2⟩ := ih st1 (n + 1) st2 h
      have hla : ∃ p, lineAbs l = some p := by
        unfold processLine at hpl
        unfold lineAbs
        by_cases hie : (l.dropWhile pyIsSpace).isEmpty = true
        · refine ⟨none, ?_⟩
          rw [if_pos hie]
        · rw [if_neg hie] at hpl
          rw [if_neg hie]
          cases hic : indent_count (l.takeWhile pyIsSpace) l with
          | error e =>
            rw [hic] at hpl
            cases hpl
          | ok ic =>
            rw [hic] at hpl
            cases hcl : classify (l.dropWhile pyIsSpace) with
            | none =>
              rw [hcl] at hpl
              cases hpl
            | some ld =>
              exact ⟨some (ic, ld), rfl⟩
      obtain ⟨p, hp⟩ := hla
      unfold absSeq
      rw [hp]
      cases p with
      | none => exact ⟨s2, hs2⟩
      | some q =>
        rw [hs2]
        exact ⟨q :: s2, rfl⟩

theorem absSeq_dataWF : ∀ (ls : List (List Char)) (s : List (Nat × LineData)),
    absSeq ls = some s → ∀ a ∈ s, dataWF a.2 := by
  intro ls
  induction ls with
  | nil =>
    intro s h a ha
    injection h with h2
    rw [← h2] at ha
    cases ha
  | cons l ls ih =>
    intro s h a ha
    unfold absSeq at h
    cases hla : lineAbs l with
    | none =>
      rw [hla] at h
      cases h
    | some o =>
      rw [hla] at h
      cases o with
      | none => exact ih s h a ha
      | some p =>
        cases hs : absSeq ls with
        | none =>
          rw [hs] at h
          cases h
        | some s2 =>
          rw [hs] at h
          injection h with h2
          rw [← h2] at ha
          cases ha with
          | head =>
            unfold lineAbs at hla
            by_cases hie : (l.dropWhile pyIsSpace).isEmpty = true
            · rw [if_pos hie] at hla
              injection hla with h3
              cases h3
            · rw [if_neg hie] at hla
              cases hic : indent_count (l.takeWhile pyIsSpace) l with
              | error e =>
                rw [hic] at hla
                cases hla
              | ok ic =>
                rw [hic] at hla
                cases hcl : classify (l.dropWhile pyIsSpace) with
                | none =>
                  rw [hcl] at hla
                  cases hla
                | some ld =>
                  rw [hcl] at hla
                  injection hla with h3
                  injection h3 with h4
                  rw [← h4]
                  exact classify_dataWF _ ld hcl
          | tail _ hmem => exact ih s2 hs a hmem

/-! ## Spine-stack lemmas -/

theorem StackInv_nil (nodes : List PNode) (succ : Option Nat) :
    StackInv nodes succ [] := trivial

theorem mem_dfsF_of_mem_child (c : ITree) (cs : List ITree) (hc : c ∈ cs) (j : Nat)
    (hj : j ∈ (dfsT c).map ITree.idx) : j ∈ (dfsF cs).map ITree.idx := by
  obtain ⟨u, hu, hju⟩ := List.mem_map.mp hj
  refine List.mem_map.mpr ⟨u, ?_, hju⟩
  unfold dfsF
  rw [List.mem_flatten]
  exact ⟨dfsT c, List.mem_map.mpr ⟨c, hc, rfl⟩, hu⟩

theorem lookup_stable (nodes : List PNode) (ci : Nat) (pn2 x : PNode) (j : Nat)
    (hj : j < nodes.length) (hne : j ≠ ci) :
    ((nodes ++ [x]).set ci pn2)[j]? = nodes[j]? := by
  rw [List.getElem?_set]
  rw [if_neg (fun h => hne h.symm)]
  rw [List.getElem?_append]
  rw [if_pos hj]

theorem Fits_stable : ∀ (k : Nat) (t : ITree) (nodes nodes2 : List PNode) (par : Nat),
    sizeOf t ≤ k →
    (∀ j, j ∈ (dfsT t).map ITree.idx → nodes2[j]? = nodes[j]?) →
    Fits nodes par t → Fits nodes2 par t := by
  intro k
  induction k with
  | zero =>
    intro t nodes nodes2 par hsz hpres hfit
    exfalso
    cases t with
    | node i ind d cs => simp at hsz
  | succ k ih =>
    intro t nodes nodes2 par hsz hpres hfit
    cases t with
    | node i ind d cs =>
      rw [Fits_node] at hfit ⊢
      obtain ⟨nd, hnd, hkind, hind, hpar, helems, hlt, hwf, hleaf, hcsf⟩ := hfit
      refine ⟨nd, ?_, hkind, hind, hpar, helems, hlt, hwf, hleaf, ?_⟩
      · rw [hpres i (by rw [dfsT_eq, List.map_cons]; exact List.mem_cons_self _ _)]
        exact hnd
      · intro c hc
        have hszc : sizeOf c ≤ k := by
          have h9 := List.sizeOf_lt_of_mem hc
          simp at hsz
          omega
        apply ih c nodes nodes2 i hszc ?_ (hcsf c hc)
        intro j hjmem
        apply hpres
        rw [dfsT_eq, List.map_cons]
        exact List.mem_cons_of_mem _ (mem_dfsF_of_mem_child c cs hc j hjmem)

theorem StackInv_stable : ∀ (stk : List Frame) (succ : Option Nat) (nodes nodes2 : List PNode),
    (∀ j, j ∈ stkIdx stk → nodes2[j]? = nodes[j]?) →
    StackInv nodes succ stk → StackInv nodes2 succ stk := by
  intro stk
  induction stk with
  | nil =>
    intro succ nodes nodes2 hpres h
    trivial
  | cons F rest ih =>
    intro succ nodes nodes2 hpres h
    obtain ⟨⟨nd, hnd, hk, hi, hp, he, hlt, hlt2, hwf, hcs, hleaf⟩, hrest⟩ := h
    refine ⟨⟨nd, ?_, hk, hi, hp, he, hlt, hlt2, hwf, ?_, hleaf⟩, ?_⟩
    · rw [hpres F.idx (by
        unfold stkIdx
        exact List.mem_append_right _ (List.mem_cons_self _ _))]
      exact hnd
    · intro c hc
      apply Fits_stable (sizeOf c) c nodes nodes2 F.idx (Nat.le_refl _) ?_ (hcs c hc)
      intro j hj
      apply hpres
      unfold stkIdx
      exact List.mem_append_right _
        (List.mem_cons_of_mem _ (mem_dfsF_of_mem_child c F.cs hc j hj))
    · apply ih (some F.idx) nodes nodes2 ?_ hrest
      intro j hj
      apply hpres
      unfold stkIdx
      exact List.mem_append_left _ hj

theorem popStk_nil (w : Int) : popStk w [] = ([], none) := by
  rw [popStk.eq_def]

theorem popStk_one (w : Int) (F : Frame) :
    popStk w [F] = if w ≤ (F.indent : Int) then ([], some F.tree) else ([F], none) := by
  rw [popStk.eq_def]

theorem popStk_cons2 (w : Int) (F G : Frame) (rest : List Frame) :
    popStk w (F :: G :: rest) =
      (if w ≤ (F.indent : Int) then popStk w ({ G with cs := G.cs ++ [F.tree] } :: rest)
       else (F :: G :: rest, none)) := by
  rw [popStk.eq_def]

theorem tree_idx (F : Frame) : ITree.idx F.tree = F.idx := rfl

theorem tree_abs (F : Frame) : ITree.abs F.tree = (F.indent, F.data) := rfl

theorem dfsT_tree (F : Frame) :
    dfsT F.tree = F.tree :: dfsF F.cs := by
  rw [show F.tree = ITree.node F.idx F.indent F.data F.cs from rfl, dfsT_eq]

theorem stkAbs_close (F G : Frame) (rest : List Frame) :
    stkAbs ({ G with cs := G.cs ++ [F.tree] } :: rest) = stkAbs (F :: G :: rest) := by
  simp only [stkAbs]
  rw [dfsF_append, dfsF_single, dfsT_tree]
  simp [List.append_assoc, tree_abs]

theorem stkIdx_close (F G : Frame) (rest : List Frame) :
    stkIdx ({ G with cs := G.cs ++ [F.tree] } :: rest) = stkIdx (F :: G :: rest) := by
  simp only [stkIdx]
  rw [dfsF_append, dfsF_single, dfsT_tree]
  simp [List.append_assoc, tree_idx]

theorem popStk_spec : ∀ (m : Nat) (stk : List Frame) (nodes : List PNode) (w : Int)
    (rt : PNode),
    stk.length ≤ m → 0 ≤ w → StackInv nodes none stk →
    nodes[0]? = some rt → rt.indentLevel = -1 →
    StackInv nodes none (popStk w stk).1 ∧
    (dfsF (popStk w stk).2.toList).map ITree.abs ++ stkAbs (popStk w stk).1 = stkAbs stk ∧
    (dfsF (popStk w stk).2.toList).map ITree.idx ++ stkIdx (popStk w stk).1 = stkIdx stk ∧
    ((popStk w stk).2.toList.map ITree.idx ++
        ((popStk w stk).1.getLast?.map Frame.idx).toList =
      (stk.getLast?.map Frame.idx).toList) ∧
    (∀ T, (popStk w stk).2 = some T → Fits nodes 0 T ∧ (popStk w stk).1 = []) ∧
    stkTopInd (popStk w stk).1 < w ∧
    (∀ F2 rest4, stk = F2 :: rest4 → w ≤ (F2.indent : Int) → ∀ fuel, rest4.length ≤ fuel →
      walkUp nodes fuel (some (stkTop rest4)) w = .ok (stkTop (popStk w stk).1)) := by
  intro m
  induction m with
  | zero =>
    intro stk nodes w rt hlen hw hsi hroot hrooti
    have hstk : stk = [] := by
      cases stk with
      | nil => rfl
      | cons F r => simp at hlen
    subst hstk
    rw [popStk_nil]
    refine ⟨trivial, rfl, rfl, rfl, ?_, ?_, ?_⟩
    · intro T hT
      cases hT
    · simp only [stkTopInd]
      omega
    · intro F2 rest4 heq
      cases heq
  | succ m ih =>
    intro stk nodes w rt hlen hw hsi hroot hrooti
    cases stk with
    | nil =>
      rw [popStk_nil]
      refine ⟨trivial, rfl, rfl, rfl, ?_, ?_, ?_⟩
      · intro T hT
        cases hT
      · simp only [stkTopInd]
        omega
      · intro F2 rest4 heq
        cases heq
    | cons F rest =>
      obtain ⟨⟨nd, hnd, hk, hi, hp, he, hltT, hltI, hwf, hcs, hleaf⟩, hrest⟩ := hsi
      by_cases hwF : w ≤ (F.indent : Int)
      · cases rest with
        | nil =>
          rw [popStk_one, if_pos hwF]
          refine ⟨trivial, ?_, ?_, ?_, ?_, ?_, ?_⟩
          · rw [show (some F.tree).toList = [F.tree] from rfl, dfsF_single, dfsT_tree]
            simp [stkAbs, tree_abs]
          · rw [show (some F.tree).toList = [F.tree] from rfl, dfsF_single, dfsT_tree]
            simp [stkIdx, tree_idx]
          · simp [tree_idx]
          · intro T hT
            injection hT with hT2
            rw [← hT2]
            refine ⟨?_, rfl⟩
            rw [show F.tree = ITree.node F.idx F.indent F.data F.cs from rfl, Fits_node]
            refine ⟨nd, hnd, hk, hi, hp, ?_, hltT, hwf, ?_, hcs⟩
            · rw [he]
              simp
            · intro hf
              exact (hleaf hf).1
          · simp only [stkTopInd]
            omega
          · intro F2 rest4 heq hw2 fuel hf
            injection heq with h9 h10
            subst h9
            subst h10
            rw [show stkTop ([] : List Frame) = 0 from rfl]
            rw [walkUp_stop nodes fuel 0 w rt hroot (by omega)]
        | cons G rest2 =>
          obtain ⟨⟨ndG, hndG, hkG, hiG, hpG, heG, hltTG, hltIG, hwfG, hcsG, hleafG⟩,
            hrest2⟩ := hrest
          have hFits : Fits nodes G.idx F.tree := by
            rw [show F.tree = ITree.node F.idx F.indent F.data F.cs from rfl, Fits_node]
            refine ⟨nd, hnd, hk, hi, hp, ?_, hltT, hwf, ?_, hcs⟩
            · rw [he]
              simp
            · intro hf
              exact (hleaf hf).1
          have hSI2 : StackInv nodes none ({ G with cs := G.cs ++ [F.tree] } :: rest2) := by
            refine ⟨⟨ndG, hndG, hkG, hiG, hpG, ?_, hltTG, hltIG, hwfG, ?_, ?_⟩, hrest2⟩
            · rw [heG]
              simp [tree_idx]
            · intro c hc
              rcases List.mem_append.mp hc with h9 | h9
              · exact hcsG c h9
              · have h10 : c = F.tree := by
                  cases h9 with
                  | head => rfl
                  | tail _ h11 => cases h11
                rw [h10]
                exact hFits
            · intro hf
              exact absurd (hleafG hf).2 (by simp)
          have hlen2 : ({ G with cs := G.cs ++ [F.tree] } :: rest2).length ≤ m := by
            simp at hlen ⊢
            omega
          obtain ⟨A, B, C, D, E, SInd, W⟩ :=
            ih ({ G with cs := G.cs ++ [F.tree] } :: rest2) nodes w rt hlen2 hw hSI2
              hroot hrooti
          rw [popStk_cons2, if_pos hwF]
          refine ⟨A, ?_, ?_, ?_, E, SInd, ?_⟩
          · rw [B]
            exact stkAbs_close F G rest2
          · rw [C]
            exact stkIdx_close F G rest2
          · rw [D]
            cases rest2 with
            | nil => simp
            | cons H rest3 =>
              rw [List.getLast?_cons_cons, List.getLast?_cons_cons,
                List.getLast?_cons_cons]
          · intro F2 rest4 heq hw2 fuel hf
            injection heq with h9 h10
            subst h9
            subst h10
            by_cases hwG : w ≤ (G.indent : Int)
            · cases fuel with
              | zero => simp at hf
              | succ fuel2 =>
                rw [show stkTop (G :: rest2) = G.idx from rfl]
                rw [walkUp_step nodes fuel2 G.idx w ndG (stkTop rest2) hndG
                  (by rw [hiG]; exact hwG) hpG]
                exact W { G with cs := G.cs ++ [F.tree] } rest2 rfl hwG fuel2
                  (by simp at hf; omega)
            · rw [show stkTop (G :: rest2) = G.idx from rfl]
              rw [walkUp_stop nodes fuel G.idx w ndG hndG (by rw [hiG]; omega)]
              have hstop : popStk w ({ G with cs := G.cs ++ [F.tree] } :: rest2) =
                  ({ G with cs := G.cs ++ [F.tree] } :: rest2, none) := by
                cases rest2 with
                | nil => rw [popStk_one, if_neg hwG]
                | cons H rest3 => rw [popStk_cons2, if_neg hwG]
              rw [hstop]
              rfl
      · have hstop : popStk w (F :: rest) = (F :: rest, none) := by
          cases rest with
          | nil => rw [popStk_one, if_neg hwF]
          | cons G rest2 => rw [popStk_cons2, if_neg hwF]
        rw [hstop]
        refine ⟨⟨⟨nd, hnd, hk, hi, hp, he, hltT, hltI, hwf, hcs, hleaf⟩, hrest⟩,
          rfl, rfl, rfl, ?_, ?_, ?_⟩
        · intro T hT
          cases hT
        · simp only [stkTopInd]
          omega
        · intro F2 rest4 heq hw2 fuel hf
          injection heq with h9 h10
          subst h9
          exact absurd hw2 hwF

theorem stkIdx_length : ∀ stk : List Frame, stk.length ≤ (stkIdx stk).length := by
  intro stk
  induction stk with
  | nil => simp [stkIdx]
  | cons F rest ih =>
    simp only [stkIdx, List.length_append, List.length_cons]
    omega

theorem insertElem_reduce (st : PState) (ic : Nat) (ld : LineData) (ci : Nat)
    (hcr : (if (ic : Int) < st.lastIndent then
        (walkUp st.nodes (st.nodes.length + 1) st.currentRoot (ic : Int)).map some
      else if st.lastIndent < (ic : Int) then Except.ok st.newElement
      else Except.ok st.currentRoot) = Except.ok (some ci)) :
    insertElem st ic ld =
      (match (st.nodes ++ [(⟨.elem ld, (ic : Int), some ci, []⟩ : PNode)])[ci]? with
       | none => .error .badIndex
       | some pn =>
         if hasElements pn.kind then
           .ok ⟨(st.nodes ++ [(⟨.elem ld, (ic : Int), some ci, []⟩ : PNode)]).set ci
                 { pn with elements := pn.elements ++ [st.nodes.length] },
               (ic : Int), some ci, some st.nodes.length⟩
         else .error .attrNoElements) := by
  unfold insertElem
  simp only []
  rw [hcr]

theorem set_lookup_self (nodes : List PNode) (ci : Nat) (pn2 : PNode)
    (hci : ci < nodes.length) : (nodes.set ci pn2)[ci]? = some pn2 := by
  rw [List.getElem?_set]
  simp [hci]

theorem range'_snoc (n : Nat) (hn : 1 ≤ n) :
    List.range' 1 (n - 1) ++ [n] = List.range' 1 n := by
  have h10 := List.range'_1_concat 1 (n - 1)
  rw [show (n - 1) + 1 = n from by omega] at h10
  rw [show 1 + (n - 1) = n from by omega] at h10
  exact h10.symm

theorem insert_step (st : PState) (f0 : List ITree) (stk : List Frame)
    (ic : Nat) (ld : LineData) (st1 : PState)
    (hinv : RInv st f0 stk) (hwf : dataWF ld)
    (hins : insertElem st ic ld = .ok st1) :
    ∃ f1 stk1, RInv st1 f1 stk1 ∧
      (dfsF f1).map ITree.abs ++ stkAbs stk1 =
        ((dfsF f0).map ITree.abs ++ stkAbs stk) ++ [(ic, ld)] := by
  have hw : (0 : Int) ≤ (ic : Int) := Int.natCast_nonneg ic
  have hroot := hinv.root0
  have hn1 : 0 < st.nodes.length := (List.getElem?_eq_some.mp hroot).1
  obtain ⟨A, B, C, D, E, SInd, W⟩ := popStk_spec stk.length stk st.nodes (ic : Int) _
    (Nat.le_refl _) hw hinv.stki hroot rfl
  have hglen : (dfsF f0).length + (stkIdx stk).length = st.nodes.length - 1 := by
    have h9 := congrArg List.length hinv.gidx
    simp at h9
    omega
  have hstkb : stk.length ≤ st.nodes.length := by
    have h9 := stkIdx_length stk
    omega
  have hcr : (if (ic : Int) < st.lastIndent then
      (walkUp st.nodes (st.nodes.length + 1) st.currentRoot (ic : Int)).map some
    else if st.lastIndent < (ic : Int) then Except.ok st.newElement
    else Except.ok st.currentRoot) =
      Except.ok (some (stkTop (popStk (ic : Int) stk).1)) := by
    cases stk with
    | nil =>
      have hlast : st.lastIndent = 0 := hinv.lastInd
      have hcur : st.currentRoot = some 0 := hinv.curRoot
      have hnew : st.newElement = none := hinv.newElem
      by_cases hpos : (0 : Int) < (ic : Int)
      · exfalso
        unfold insertElem at hins
        simp only [] at hins
        rw [hlast, if_neg (by omega), if_pos hpos, hnew] at hins
        cases hins
      · rw [hlast, if_neg (by omega), if_neg (by omega), hcur, popStk_nil]
        rfl
    | cons F rest =>
      have hlast : st.lastIndent = (F.indent : Int) := hinv.lastInd
      have hcur : st.currentRoot = some (stkTop rest) := hinv.curRoot
      have hnew : st.newElement = some F.idx := hinv.newElem
      rcases lt_trichotomy ((ic : Int)) ((F.indent : Int)) with hlt | heqi | hgt
      · rw [hlast, if_pos hlt, hcur]
        rw [W F rest rfl (by omega) (st.nodes.length + 1) (by
          simp only [List.length_cons] at hstkb
          omega)]
        rfl
      · rw [hlast, if_neg (by omega), if_neg (by omega), hcur]
        have hse : stkTop (popStk (ic : Int) (F :: rest)).1 = stkTop rest := by
          obtain ⟨⟨nd, hnd, hk, hi, hp, he, hltT, hltI, hwf2, hcs2, hleaf⟩, hrest⟩ :=
            hinv.stki
          cases rest with
          | nil =>
            rw [popStk_one, if_pos (by omega)]
          | cons G rest2 =>
            have hGlt : (G.indent : Int) < (ic : Int) := by
              have h9 : stkTopInd (G :: rest2) < (F.indent : Int) := hltI
              simp only [stkTopInd] at h9
              omega
            rw [popStk_cons2, if_pos (by omega)]
            cases rest2 with
            | nil =>
              rw [popStk_one, if_neg (show ¬(ic : Int) ≤ (G.indent : Int) by omega)]
              rfl
            | cons H rest3 =>
              rw [popStk_cons2, if_neg (show ¬(ic : Int) ≤ (G.indent : Int) by omega)]
              rfl
        rw [hse]
      · rw [hlast, if_neg (by omega), if_pos hgt, hnew]
        have hse : stkTop (popStk (ic : Int) (F :: rest)).1 = F.idx := by
          cases rest with
          | nil =>
            rw [popStk_one, if_neg (by omega)]
            rfl
          | cons G rest2 =>
            rw [popStk_cons2, if_neg (by omega)]
            rfl
        rw [hse]
  rw [insertElem_reduce st ic ld (stkTop (popStk (ic : Int) stk).1) hcr] at hins
  cases hstk1 : (popStk (ic : Int) stk).1 with
  | nil =>
    rw [hstk1] at A B C D SInd hins
    rw [show stkTop ([] : List Frame) = 0 from rfl] at hins
    have hlook : (st.nodes ++
        [(⟨.elem ld, (ic : Int), some 0, []⟩ : PNode)])[0]? =
        some (⟨.root, -1, none,
          f0.map ITree.idx ++ (stk.getLast?.map Frame.idx).toList⟩ : PNode) := by
      rw [List.getElem?_append, if_pos hn1]
      exact hroot
    simp only [hlook] at hins
    injection hins with hst1
    subst hst1
    have hD2 : (popStk (ic : Int) stk).2.toList.map ITree.idx =
        (stk.getLast?.map Frame.idx).toList := by
      simp at D
      exact D
    have hB2 : ((dfsF (popStk (ic : Int) stk).2.toList).map ITree.abs) = stkAbs stk := by
      simp only [stkAbs] at B
      simpa using B
    have hC2 : ((dfsF (popStk (ic : Int) stk).2.toList).map ITree.idx) = stkIdx stk := by
      simp only [stkIdx] at C
      simpa using C
    have gidx2 : (dfsF (f0 ++ (popStk (ic : Int) stk).2.toList)).map ITree.idx =
        List.range' 1 (st.nodes.length - 1) := by
      rw [dfsF_append, List.map_append, hC2]
      exact hinv.gidx
    have hEF : ∀ T, (popStk (ic : Int) stk).2 = some T → Fits st.nodes 0 T := by
      intro T hT
      exact (E T hT).1
    refine ⟨f0 ++ (popStk (ic : Int) stk).2.toList,
      [⟨st.nodes.length, ic, ld, []⟩], ⟨?_, ?_, ?_, ?_, ?_, ?_, ?_, ?_⟩, ?_⟩
    · -- root0
      show (((st.nodes ++ [(⟨.elem ld, (ic : Int), some 0, []⟩ : PNode)]).set 0
          (⟨.root, -1, none,
            (f0.map ITree.idx ++ (stk.getLast?.map Frame.idx).toList) ++
              [st.nodes.length]⟩ : PNode)))[0]? = _
      rw [set_lookup_self _ 0 _ (by simp)]
      congr 1
      simp only [List.map_append, hD2]
      simp [List.getLast?]
    · -- fits0
      intro t ht
      have hpres : ∀ j, j ∈ (dfsT t).map ITree.idx →
          (((st.nodes ++ [(⟨.elem ld, (ic : Int), some 0, []⟩ : PNode)]).set 0
            (⟨.root, -1, none,
              (f0.map ITree.idx ++ (stk.getLast?.map Frame.idx).toList) ++
                [st.nodes.length]⟩ : PNode)))[j]? = st.nodes[j]? := by
        intro j hj
        have hj2 : j ∈ (dfsF (f0 ++ (popStk (ic : Int) stk).2.toList)).map ITree.idx :=
          mem_dfsF_of_mem_child t _ ht j hj
        rw [gidx2] at hj2
        have hj3 := mem_range'_bounds j 1 _ hj2
        exact lookup_stable _ _ _ _ j (by omega) (by omega)
      rcases List.mem_append.mp ht with h9 | h9
      · exact Fits_stable (sizeOf t) t st.nodes _ 0 (Nat.le_refl _) hpres (hinv.fits0 t h9)
      · cases hoptv : (popStk (ic : Int) stk).2 with
        | none =>
          rw [hoptv] at h9
          cases h9
        | some T =>
          rw [hoptv] at h9
          have h10 : t = T := by
            cases h9 with
            | head => rfl
            | tail _ h11 => cases h11
          rw [h10]
          exact Fits_stable (sizeOf T) T st.nodes _ 0 (Nat.le_refl _)
            (by rw [← h10]; exact hpres) (hEF T hoptv)
    · -- stki
      refine ⟨⟨⟨.elem ld, (ic : Int), some 0, []⟩, ?_, rfl, rfl, rfl, rfl, ?_, ?_, hwf,
        ?_, ?_⟩, trivial⟩
      · exact set_append_lookup_new st.nodes 0 _ _ hn1
      · exact hn1
      · show (-1 : Int) < (ic : Int)
        omega
      · intro c hc
        cases hc
      · intro _
        exact ⟨rfl, rfl⟩
    · rfl
    · rfl
    · rfl
    · intro h9
      cases h9
    · -- gidx
      simp only [stkIdx]
      rw [show dfsF ([] : List ITree) = [] from rfl]
      simp only [List.map_nil, List.append_nil, List.nil_append]
      rw [gidx2]
      rw [show ((st.nodes ++
          [(⟨.elem ld, (ic : Int), some 0, []⟩ : PNode)]).set 0
          (⟨.root, -1, none,
            (f0.map ITree.idx ++ (stk.getLast?.map Frame.idx).toList) ++
              [st.nodes.length]⟩ : PNode)).length = st.nodes.length + 1 from by simp]
      rw [show st.nodes.length + 1 - 1 = st.nodes.length from rfl]
      exact range'_snoc st.nodes.length hn1
    · -- abs list
      rw [dfsF_append, List.map_append, hB2]
      simp only [stkAbs]
      rw [show dfsF ([] : List ITree) = [] from rfl]
      simp [List.append_assoc]
  | cons F2 rest2 =>
    rw [hstk1] at A B C D SInd hins
    have hopt : (popStk (ic : Int) stk).2 = none := by
      cases hoptv : (popStk (ic : Int) stk).2 with
      | none => rfl
      | some T =>
        obtain ⟨_, h9⟩ := E T hoptv
        rw [hstk1] at h9
        cases h9
    rw [hopt] at B C D
    simp only [Option.toList_none] at B C D
    rw [show dfsF ([] : List ITree) = [] from rfl] at B C
    simp only [List.map_nil, List.nil_append] at B C D
    obtain ⟨⟨ndF, hndF, hkF, hiF, hpF, heF, hltTF, hltIF, hwfF, hcsF, hleafF⟩, hrestA⟩ := A
    rw [show stkTop (F2 :: rest2) = F2.idx from rfl] at hins
    have hcilt : F2.idx < st.nodes.length := (List.getElem?_eq_some.mp hndF).1
    have hlook : (st.nodes ++
        [(⟨.elem ld, (ic : Int), some F2.idx, []⟩ : PNode)])[F2.idx]? = some ndF := by
      rw [List.getElem?_append, if_pos hcilt]
      exact hndF
    simp only [hlook] at hins
    cases hhas : hasElements ndF.kind with
    | false =>
      rw [if_neg (by rw [hhas]; exact Bool.false_ne_true)] at hins
      cases hins
    | true =>
      rw [if_pos hhas] at hins
      injection hins with hst1
      subst hst1
      have hhasF : hasElements (.elem F2.data) = true := by
        rw [← hkF]
        exact hhas
      have gidx2 : (dfsF f0).map ITree.idx ++ stkIdx (F2 :: rest2) =
          List.range' 1 (st.nodes.length - 1) := by
        rw [C]
        exact hinv.gidx
      have hsplit3 := range'_split3 ((dfsF f0).map ITree.idx ++ stkIdx rest2)
        ((dfsF F2.cs).map ITree.idx) F2.idx (st.nodes.length - 1) (by
          rw [List.append_assoc]
          rw [show stkIdx rest2 ++ F2.idx :: (dfsF F2.cs).map ITree.idx =
            stkIdx (F2 :: rest2) from rfl]
          exact gidx2)
      obtain ⟨hciEq, hxslt, hysgt, hxsn, hysn, hcin⟩ := hsplit3
      have hpresL : ∀ j, j ∈ (dfsF f0).map ITree.idx ++ stkIdx rest2 →
          (((st.nodes ++ [(⟨.elem ld, (ic : Int), some F2.idx, []⟩ : PNode)]).set F2.idx
            { ndF with elements := ndF.elements ++ [st.nodes.length] })[j]? =
            st.nodes[j]?) := by
        intro j hj
        exact lookup_stable _ _ _ _ j (by have := hxsn j hj; omega)
          (by have := hxslt j hj; omega)
      have hpresR : ∀ j, j ∈ (dfsF F2.cs).map ITree.idx →
          (((st.nodes ++ [(⟨.elem ld, (ic : Int), some F2.idx, []⟩ : PNode)]).set F2.idx
            { ndF with elements := ndF.elements ++ [st.nodes.length] })[j]? =
            st.nodes[j]?) := by
        intro j hj
        exact lookup_stable _ _ _ _ j (by have := hysn j hj; omega)
          (by have := hysgt j hj; omega)
      refine ⟨f0, ⟨st.nodes.length, ic, ld, []⟩ :: F2 :: rest2,
        ⟨?_, ?_, ?_, ?_, ?_, ?_, ?_, ?_⟩, ?_⟩
      · -- root0
        show (((st.nodes ++ [(⟨.elem ld, (ic : Int), some F2.idx, []⟩ : PNode)]).set F2.idx
          { ndF with elements := ndF.elements ++ [st.nodes.length] })[0]? = _)
        rw [lookup_stable _ _ _ _ 0 hn1 (by omega)]
        rw [hroot]
        congr 3
        rw [List.getLast?_cons_cons]
        exact D.symm
      · -- fits0
        intro t ht
        refine Fits_stable (sizeOf t) t st.nodes _ 0 (Nat.le_refl _) ?_ (hinv.fits0 t ht)
        intro j hj
        apply hpresL
        apply List.mem_append_left
        exact mem_dfsF_of_mem_child t f0 ht j hj
      · -- stki
        refine ⟨⟨⟨.elem ld, (ic : Int), some F2.idx, []⟩, ?_, rfl, rfl, rfl, rfl,
          ?_, ?_, hwf, ?_, ?_⟩, ?_, ?_⟩
        · exact set_append_lookup_new st.nodes F2.idx _ _ hcilt
        · exact hcilt
        · exact SInd
        · intro c hc
          cases hc
        · intro _
          exact ⟨rfl, rfl⟩
        · -- F2 layer with succ = some newIdx
          refine ⟨{ ndF with elements := ndF.elements ++ [st.nodes.length] }, ?_, hkF,
            hiF, hpF, ?_, hltTF, hltIF, hwfF, ?_, ?_⟩
          · exact set_lookup_self _ F2.idx _ (by simp; omega)
          · show ndF.elements ++ [st.nodes.length] = _
            rw [heF]
            simp
          · intro c hc
            refine Fits_stable (sizeOf c) c st.nodes _ F2.idx (Nat.le_refl _) ?_
              (hcsF c hc)
            intro j hj
            apply hpresR
            exact mem_dfsF_of_mem_child c F2.cs hc j hj
          · intro hf
            rw [hf] at hhasF
            cases hhasF
        · -- rest2 layers
          refine StackInv_stable rest2 (some F2.idx) st.nodes _ ?_ hrestA
          intro j hj
          apply hpresL
          exact List.mem_append_right _ hj
      · rfl
      · rfl
      · rfl
      · intro h9
        cases h9
      · -- gidx
        simp only [stkIdx]
        rw [show dfsF ([] : List ITree) = [] from rfl]
        simp only [List.map_nil, List.append_nil]
        rw [show stkIdx rest2 ++ F2.idx :: (dfsF F2.cs).map ITree.idx =
          stkIdx (F2 :: rest2) from rfl]
        rw [← List.append_assoc, gidx2]
        rw [show ((st.nodes ++
            [(⟨.elem ld, (ic : Int), some F2.idx, []⟩ : PNode)]).set F2.idx
            { ndF with elements := ndF.elements ++ [st.nodes.length] }).length =
          st.nodes.length + 1 from by simp]
        rw [show st.nodes.length + 1 - 1 = st.nodes.length from rfl]
        exact range'_snoc st.nodes.length hn1
      · -- abs list
        simp only [stkAbs]
        rw [show dfsF ([] : List ITree) = [] from rfl]
        simp only [List.map_nil, List.append_nil]
        rw [show stkAbs rest2 ++ (F2.indent, F2.data) :: (dfsF F2.cs).map ITree.abs =
          stkAbs (F2 :: rest2) from rfl]
        rw [← List.append_assoc, B]

theorem initState_rinv : RInv initState [] [] := by
  refine ⟨rfl, ?_, trivial, rfl, rfl, rfl, fun _ => rfl, rfl⟩
  intro t ht
  cases ht

theorem runAbs_inv : ∀ (s : List (Nat × LineData)) (st : PState) (f0 : List ITree)
    (stk : List Frame) (st2 : PState),
    RInv st f0 stk → (∀ a ∈ s, dataWF a.2) → runAbs st s = .ok st2 →
    ∃ f1 stk1, RInv st2 f1 stk1 ∧
      (dfsF f1).map ITree.abs ++ stkAbs stk1 =
        ((dfsF f0).map ITree.abs ++ stkAbs stk) ++ s := by
  intro s
  induction s with
  | nil =>
    intro st f0 stk st2 hinv hwfs h
    injection h with h2
    subst h2
    exact ⟨f0, stk, hinv, by simp⟩
  | cons a s ih =>
    intro st f0 stk st2 hinv hwfs h
    unfold runAbs at h
    cases hins : insertElem st a.1 a.2 with
    | error e =>
      rw [hins] at h
      cases h
    | ok stM =>
      rw [hins] at h
      obtain ⟨f1, stk1, hinv1, habs1⟩ := insert_step st f0 stk a.1 a.2 stM hinv
        (hwfs a (List.mem_cons_self a s)) hins
      obtain ⟨f2, stk2, hinv2, habs2⟩ := ih stM f1 stk1 st2 hinv1
        (fun b hb => hwfs b (List.mem_cons_of_mem a hb)) h
      refine ⟨f2, stk2, hinv2, ?_⟩
      rw [habs2, habs1]
      simp [List.append_assoc]

theorem extract_fits : ∀ (fuel : Nat) (t : ITree) (nodes : List PNode) (par : Nat),
    Fits nodes par t → nodes.length - par ≤ fuel →
    extractTree nodes fuel t.idx = toElem t := by
  intro fuel
  induction fuel with
  | zero =>
    intro t nodes par hfit hsz
    exfalso
    cases t with
    | node i ind d cs =>
      rw [Fits_node] at hfit
      obtain ⟨nd, hnd, hk, hi2, hp, he, hlt, hwf, hleaf, hcs⟩ := hfit
      have h9 := (List.getElem?_eq_some.mp hnd).1
      omega
  | succ fuel ih =>
    intro t nodes par hfit hsz
    cases t with
    | node i ind d cs =>
      rw [Fits_node] at hfit
      obtain ⟨nd, hnd, hk, hi2, hp, he, hlt, hwf, hleaf, hcs⟩ := hfit
      have hilt := (List.getElem?_eq_some.mp hnd).1
      show extractTree nodes (fuel + 1) i = _
      simp only [extractTree]
      simp only [hnd]
      rw [hk]
      cases d with
      | comment tx =>
        rw [toElem_comment]
        simp [hi2]
      | classRule nx =>
        rw [toElem_classRule]
        simp [hi2]
      | property nx vx =>
        rw [toElem_property]
        simp [hi2]
      | widget nx =>
        rw [toElem_widget]
        simp only [hi2, he]
        simp only [Int.toNat_natCast]
        congr 1
        rw [List.map_map]
        apply List.map_congr_left
        intro c hcmem
        exact ih c nodes i (hcs c hcmem) (by omega)

/-- C6: parsing, then re-serializing the resulting element tree depth-first
(one line per element, rebuilt from its kind, fields and recorded
indentation), then parsing again, reproduces the original parse result
exactly. -/
theorem parse_serialize_roundtrip (lines : List (List Char)) (r : ParseResult)
    (h : parse lines = .ok r) : parse (serializeResult r) = .ok r := by
  unfold parse at h
  cases hrun : runLines initState 1 lines with
  | error e =>
    rw [hrun] at h
    cases h
  | ok st =>
    rw [hrun] at h
    obtain ⟨s, hs⟩ := runLines_ok_absSeq lines initState 1 st hrun
    have hrunAbs : runAbs initState s = .ok st := by
      rw [← runLines_absSeq lines s initState 1 hs]
      exact hrun
    have hwfs := absSeq_dataWF lines s hs
    obtain ⟨f0, stk, hinv, habs⟩ := runAbs_inv s initState [] [] st initState_rinv
      hwfs hrunAbs
    have habs2 : (dfsF f0).map ITree.abs ++ stkAbs stk = s := by
      rw [habs]
      rfl
    -- close the stack with a width-0 pop
    have hroot := hinv.root0
    have hn1 : 0 < st.nodes.length := (List.getElem?_eq_some.mp hroot).1
    obtain ⟨A0, B0, C0, D0, E0, SInd0, W0⟩ := popStk_spec stk.length stk st.nodes 0 _
      (Nat.le_refl _) (by omega) hinv.stki hroot rfl
    have hempty : (popStk 0 stk).1 = [] := by
      cases hq : (popStk 0 stk).1 with
      | nil => rfl
      | cons F r2 =>
        exfalso
        rw [hq] at SInd0
        simp only [stkTopInd] at SInd0
        omega
    rw [hempty] at B0 D0 E0
    have hB2 : (dfsF (popStk 0 stk).2.toList).map ITree.abs = stkAbs stk := by
      simp only [stkAbs] at B0
      simpa using B0
    have hD2 : (popStk 0 stk).2.toList.map ITree.idx =
        (stk.getLast?.map Frame.idx).toList := by
      simpa using D0
    have hFitsAll : ∀ t ∈ f0 ++ (popStk 0 stk).2.toList, Fits st.nodes 0 t := by
      intro t ht
      rcases List.mem_append.mp ht with h9 | h9
      · exact hinv.fits0 t h9
      · cases hoptv : (popStk 0 stk).2 with
        | none =>
          rw [hoptv] at h9
          cases h9
        | some T =>
          rw [hoptv] at h9
          have h10 : t = T := by
            cases h9 with
            | head => rfl
            | tail _ h11 => cases h11
          rw [h10]
          exact (E0 T hoptv).1
    have habsFin : (dfsF (f0 ++ (popStk 0 stk).2.toList)).map ITree.abs = s := by
      rw [dfsF_append, List.map_append, hB2]
      exact habs2
    have helems : rootElements st.nodes =
        (f0 ++ (popStk 0 stk).2.toList).map ITree.idx := by
      unfold rootElements
      rw [hroot]
      rw [List.map_append, hD2]
    -- determine r
    have h2 : (if (rootWidgets st.nodes).length ≤ 1 then
        Except.ok (⟨st.nodes, rootElements st.nodes,
          (rootWidgets st.nodes).head?⟩ : ParseResult)
      else Except.error Err.assertMultipleRoots) = Except.ok r := h
    by_cases hws : (rootWidgets st.nodes).length ≤ 1
    · rw [if_pos hws] at h2
      injection h2 with hr
      subst hr
      -- serialization of r
      have hser : serializeResult ⟨st.nodes, rootElements st.nodes,
          (rootWidgets st.nodes).head?⟩ =
          (((f0 ++ (popStk 0 stk).2.toList).map toElem).map serializeTree).flatten := by
        unfold serializeResult extractForest
        show (((rootElements st.nodes).map
          (fun i => extractTree st.nodes st.nodes.length i)).map serializeTree).flatten =
          (((f0 ++ (popStk 0 stk).2.toList).map toElem).map serializeTree).flatten
        rw [helems]
        have hmc : ((f0 ++ (popStk 0 stk).2.toList).map ITree.idx).map
            (fun i => extractTree st.nodes st.nodes.length i) =
            (f0 ++ (popStk 0 stk).2.toList).map toElem := by
          rw [List.map_map]
          apply List.map_congr_left
          intro t ht
          show extractTree st.nodes st.nodes.length t.idx = toElem t
          exact extract_fits st.nodes.length t st.nodes 0 (hFitsAll t ht) (by omega)
        rw [hmc]
      have hserabs : absSeq (serializeResult ⟨st.nodes, rootElements st.nodes,
          (rootWidgets st.nodes).head?⟩) = some s := by
        rw [hser]
        rw [absSeq_serializeForest (f0 ++ (popStk 0 stk).2.toList) st.nodes 0 hFitsAll]
        rw [habsFin]
      have hserrun : runLines initState 1 (serializeResult ⟨st.nodes,
          rootElements st.nodes, (rootWidgets st.nodes).head?⟩) = .ok st := by
        rw [runLines_absSeq _ s initState 1 hserabs]
        exact hrunAbs
      unfold parse
      rw [hserrun]
      show (if (rootWidgets st.nodes).length ≤ 1 then
          Except.ok (⟨st.nodes, rootElements st.nodes,
            (rootWidgets st.nodes).head?⟩ : ParseResult)
        else Except.error Err.assertMultipleRoots) =
        Except.ok (⟨st.nodes, rootElements st.nodes,
          (rootWidgets st.nodes).head?⟩ : ParseResult)
      rw [if_pos hws]
    · rw [if_neg hws] at h2
      cases h2

/-- Witness for the round trip: parsing the concrete two-line file
"A:" / "  b: 1" succeeds with the given result, and parsing its
serialization returns the same result. -/
theorem parse_serialize_roundtrip_witness :
    parse [['A', ':', '\n'], [' ', ' ', 'b', ':', ' ', '1', '\n']] =
      Except.ok (⟨[⟨.root, -1, none, [1]⟩,
        ⟨.elem (.widget ['A']), 0, some 0, [2]⟩,
        ⟨.elem (.property ['b'] ['1']), 2, some 1, []⟩], [1], some 1⟩ : ParseResult) ∧
    parse (serializeResult (⟨[⟨.root, -1, none, [1]⟩,
        ⟨.elem (.widget ['A']), 0, some 0, [2]⟩,
        ⟨.elem (.property ['b'] ['1']), 2, some 1, []⟩], [1], some 1⟩ : ParseResult)) =
      Except.ok (⟨[⟨.root, -1, none, [1]⟩,
        ⟨.elem (.widget ['A']), 0, some 0, [2]⟩,
        ⟨.elem (.property ['b'] ['1']), 2, some 1, []⟩], [1], some 1⟩ : ParseResult) :=
  ⟨by rfl, parse_serialize_roundtrip
    [['A', ':', '\n'], [' ', ' ', 'b', ':', ' ', '1', '\n']] _ (by rfl)⟩

end KvParser
